import Mathlib

/-! git-stack: a shallow embedding of `main.go`

The program keeps a stack of branch names in the text file
`.git/git_branch_stack` and rebases the stacked branches one onto the
other (`git stack rebase`), persisting a checkpoint in
`.git/git_stack_rebase_state` when a rebase stops on a conflict.

Modelling conventions.

* Go strings and file contents are `List Char` (`Str`).
* The two files of the program are fields of `World`; a file that does not
  exist is `none`.  Reading can fail: `World` tells whether `getGitDir`
  finds a `.git` directory and whether opening the stack file or reading the
  rebase state file fails with an error other than "does not exist"; the
  scanner of `readLines` fails on a line of 64 KiB or more.  Writing and
  removing a file succeed inside a git repository.  The stack update of
  `pop` (`popBranch`) is stated on the lines that `readLines` has returned.
* Git is an environment `Git`: given the commands issued so far and the next
  command, it answers `none` (the command failed) or `some out` (it
  succeeded and printed `out`).  Every command the program starts is
  appended to `World.log`, the failing one included.
* `int` is the 64-bit Go `int`; indices are `Int` and the only addition that
  can overflow (`lastSuccessfulIndex+1`) wraps explicitly.
* An index out of range is the outcome `Outcome.crash`.
* Library functions (`strings.TrimSpace`, `strings.Split`, `strings.Join`,
  `strconv.Atoi`, `strconv.ParseBool`, `bufio.Scanner`, `fmt`) are modelled
  from their documented behaviour.
-/

namespace GitStack

/-- Go strings, as lists of characters. -/
abbrev Str := List Char

/-! ## Library functions -/

/-- Go's `unicode.IsSpace`. -/
def isSpace (c : Char) : Bool :=
  c = '\t' || c = '\n' || c = Char.ofNat 0x0B || c = Char.ofNat 0x0C || c = '\r' || c = ' ' ||
  c = Char.ofNat 0x85 || c = Char.ofNat 0xA0 || c = Char.ofNat 0x1680 ||
  (0x2000 ≤ c.toNat && c.toNat ≤ 0x200A) ||
  c = Char.ofNat 0x2028 || c = Char.ofNat 0x2029 || c = Char.ofNat 0x202F ||
  c = Char.ofNat 0x205F || c = Char.ofNat 0x3000

/-- Go's `strings.TrimSpace`: drops the leading and the trailing white space. -/
def trimSpace (s : Str) : Str :=
  ((s.dropWhile isSpace).reverse.dropWhile isSpace).reverse

/-- Go's `strings.Split(s, "\n")`: the fields between the newlines of `s`; one more
field than there are newlines. -/
def splitNewline : Str → List Str
  | [] => [[]]
  | c :: cs =>
    if c = '\n' then [] :: splitNewline cs
    else
      match splitNewline cs with
      | [] => [[c]]
      | f :: fs => (c :: f) :: fs

/-- Go's `strings.Join(xs, "\n")`. -/
def joinNewline : List Str → Str
  | [] => []
  | [x] => x
  | x :: y :: ys => x ++ '\n' :: joinNewline (y :: ys)

/-- The `dropCR` of `bufio.ScanLines`: one trailing carriage return is removed. -/
def dropCR (s : Str) : Str :=
  match s.reverse with
  | '\r' :: r => r.reverse
  | _ => s

/-- The tokens of a `bufio.Scanner` with the default split function `ScanLines`: `cur` is
the line read so far, kept in reverse.  Every newline ends a line; what follows the last
newline is a line when it is not empty; each line has its trailing carriage return
dropped. -/
def scanLines (cur : Str) : Str → List Str
  | [] => if cur = [] then [] else [dropCR cur.reverse]
  | c :: cs =>
    if c = '\n' then dropCR cur.reverse :: scanLines [] cs
    else scanLines (c :: cur) cs

/-- The decimal digit of a number below ten. -/
def digitChar (d : Nat) : Char := Char.ofNat (48 + d)

/-- The decimal digits of `n`, the least significant first, by repeated division; `fuel`
bounds the number of digits. -/
def decimalDigits : Nat → Nat → List Nat
  | 0, _ => []
  | fuel + 1, n => if n < 10 then [n] else n % 10 :: decimalDigits fuel (n / 10)

/-- The `%d` of `fmt` on a natural number. -/
def formatNat (n : Nat) : Str :=
  ((decimalDigits (n + 1) n).map digitChar).reverse

/-- The `%d` of `fmt`. -/
def formatInt (k : Int) : Str :=
  if k < 0 then '-' :: formatNat k.natAbs else formatNat k.natAbs

/-- The `%t` of `fmt`. -/
def formatBool (b : Bool) : Str :=
  if b then "true".toList else "false".toList

/-- The digit loop of `strconv.ParseUint(s, 10, 64)`: `none` is a syntax error, a value of
`2 ^ 64` or more is a range error. -/
def parseDigits (acc : Nat) : Str → Option Nat
  | [] => some acc
  | c :: cs =>
    if '0' ≤ c ∧ c ≤ '9' then
      let n := acc * 10 + (c.toNat - 48)
      if 2 ^ 64 ≤ n then some n else parseDigits n cs
    else none

/-- The value that `strconv.Atoi` returns, its error being ignored by the caller: zero on a
syntax error, the nearest bound of `int` on a range error. -/
def atoi (s : Str) : Int :=
  let neg := s.head? = some '-'
  let body := if s.head? = some '-' ∨ s.head? = some '+' then s.tail else s
  if body = [] then 0
  else
    match parseDigits 0 body with
    | none => 0
    | some un =>
      if neg then (if 2 ^ 63 < un then -(2 ^ 63 : Int) else -(un : Int))
      else (if 2 ^ 63 ≤ un then (2 ^ 63 - 1 : Int) else (un : Int))

/-- The value that `strconv.ParseBool` returns, its error being ignored by the caller. -/
def parseBool (s : Str) : Bool :=
  s = "1".toList || s = "t".toList || s = "T".toList || s = "TRUE".toList ||
  s = "true".toList || s = "True".toList

/-- Addition of Go's 64-bit `int`, wrapping on overflow. -/
def wrapInt (x : Int) : Int :=
  (x + 2 ^ 63) % 2 ^ 64 - 2 ^ 63

/-! ## The stack file -/

/-- The constant `bufio.MaxScanTokenSize`. -/
def maxScanTokenSize : Nat := 65536

/-- The length of a string in bytes (UTF-8). -/
def byteLength (s : Str) : Nat := (s.map Char.utf8Size).sum

/-- Whether a `bufio.Scanner` with the default buffer stops with `bufio.ErrTooLong`: some
line of the content, its carriage return included, is `MaxScanTokenSize` bytes long or
more.  `cur` is the line read so far, kept in reverse. -/
def tokenTooLong (cur : Str) : Str → Bool
  | [] => decide (maxScanTokenSize ≤ byteLength cur)
  | c :: cs =>
    if c = '\n' then decide (maxScanTokenSize ≤ byteLength cur) || tokenTooLong [] cs
    else tokenTooLong (c :: cur) cs

/-- The lines that `readLines` returns when it returns no error: none when the file does
not exist, else the tokens of the scanner. -/
def fileLines (file : Option Str) : List Str :=
  match file with
  | none => []
  | some content => scanLines [] content

/-- The append of `checkoutCmd` (`os.OpenFile` with `O_APPEND|O_CREATE`, then
`fmt.Fprintln(file, currentBranch)`). -/
def pushBranch (file : Option Str) (currentBranch : Str) : Option Str :=
  match file with
  | none => some (currentBranch ++ ['\n'])
  | some content => some (content ++ currentBranch ++ ['\n'])

/-- The stack update of `popCmd` once `readLines` has returned the lines of the file:
nothing on an empty stack, else the branch on top and the file rewritten with the lines
below it. -/
def popBranch (file : Option Str) : Option (Str × Option Str) :=
  let lines := fileLines file
  if lines.length = 0 then none
  else
    let branchToPop := lines.getLast?.getD []
    let newStack := lines.dropLast
    some (branchToPop, some (joinNewline newStack ++ ['\n']))

/-- The pushes of `names` one after the other, the first name first. -/
def pushAll (file : Option Str) (names : List Str) : Option Str :=
  names.foldl pushBranch file

/-- The branches that `n` pops return, the first pop first; a pop of an empty stack returns
nothing and leaves the file as it is. -/
def popMany : Nat → Option Str → List Str
  | 0, _ => []
  | n + 1, file =>
    match popBranch file with
    | none => popMany n file
    | some (branch, rest) => branch :: popMany n rest

/-- A stack file that is absent or was written only by this program: by the append of
`checkout` and by the rewrite of `pop` (`clear` removes the file). -/
inductive WrittenByProgram : Option Str → Prop where
  | absent : WrittenByProgram none
  | push (file : Option Str) (branch : Str) :
    WrittenByProgram file → WrittenByProgram (pushBranch file branch)
  | pop (file : Option Str) (branch : Str) (rest : Option Str) :
    WrittenByProgram file → popBranch file = some (branch, rest) → WrittenByProgram rest

/-! ## Git and the state of the repository -/

/-- The git commands that the program runs. -/
inductive GitCmd where
  /-- `git status --porcelain` -/
  | status
  /-- `git stash push -m "git-stack auto-stash"` -/
  | stashPush
  /-- `git stash pop` -/
  | stashPop
  /-- `git rev-parse --abbrev-ref HEAD` -/
  | revParse
  /-- `git checkout <ref>` -/
  | checkout (ref : Str)
  /-- `git pull` -/
  | pull
  /-- `git rebase <onto>` -/
  | rebase (onto : Str)
  deriving DecidableEq, Repr

/-- Git as an environment: after the commands `history`, the command `c` fails (`none`) or
succeeds with the standard output `out` (`some out`). -/
abbrev Git := List GitCmd → GitCmd → Option Str

/-- The errors that the commands return. -/
inductive Err where
  /-- "fatal: not a git repository (or any of the parent directories): .git", or the error
  of `os.Getwd` -/
  | notAGitRepository
  /-- The error of `os.Open` on the stack file, other than "does not exist". -/
  | openStackFile
  /-- The error `bufio.ErrTooLong` of the scanner of `readLines`. -/
  | tokenTooLong
  /-- The error of `os.ReadFile` on the rebase state file, other than "does not exist". -/
  | readStateFile
  /-- "failed to check git status" -/
  | statusFailed
  /-- "failed to stash changes" -/
  | stashFailed
  /-- "could not get current branch" -/
  | currentBranchFailed
  /-- The error of a git command run by `runGitCommand`. -/
  | command (c : GitCmd)
  /-- "no rebase in progress" -/
  | noRebaseInProgress
  /-- "invalid rebase state file" -/
  | invalidStateFile
  deriving DecidableEq, Repr

deriving instance DecidableEq for Except

/-- How a command ends: `nil`, an error, or a run-time panic (index out of range). -/
inductive Outcome where
  | ok
  | error (e : Err)
  | crash
  deriving DecidableEq, Repr

/-- The state that the program reads and writes: the stack file, the rebase state file
(the checkpoint) and the git commands run so far, the oldest first; and what the file
system answers: whether `getGitDir` finds a `.git` directory, whether `os.Open` fails on
the stack file and whether `os.ReadFile` fails on the rebase state file, each with an
error other than "does not exist". -/
structure World where
  stackFile : Option Str
  stateFile : Option Str
  log : List GitCmd
  inRepo : Bool
  stackOpenFails : Bool
  stateReadFails : Bool
  deriving DecidableEq, Repr

/-- `getGitDir`: the `.git` directory is found, or the error is returned. -/
def getGitDir (w : World) : Except Err Unit :=
  if w.inRepo then .ok () else .error .notAGitRepository

/-- `getStackFilePath`: fails when `getGitDir` fails. -/
def getStackFilePath (w : World) : Except Err Unit := getGitDir w

/-- `getRebaseStateFilePath`: fails when `getGitDir` fails. -/
def getRebaseStateFilePath (w : World) : Except Err Unit := getGitDir w

/-- `readLines`: no lines when the file does not exist, the error of `os.Open` when the
file cannot be opened, the error of the scanner when a line is too long, else the lines. -/
def readLines (openFails : Bool) (file : Option Str) : Except Err (List Str) :=
  if openFails then .error .openStackFile
  else
    match file with
    | none => .ok []
    | some content =>
      if tokenTooLong [] content then .error .tokenTooLong else .ok (scanLines [] content)

/-- `getStackFilePath` followed by `readLines(stackFile)`, as in `rebaseCmd` and in
`cmdRebaseContinue`: the first error is returned. -/
def readStack (w : World) : Except Err (List Str) :=
  match getStackFilePath w with
  | .error e => .error e
  | .ok _ => readLines w.stackOpenFails w.stackFile

/-- `getRebaseStateFilePath` followed by `os.ReadFile(rebaseStateFile)`, as in
`cmdRebaseContinue`: the first error is returned; `none` is "does not exist". -/
def readStateFile (w : World) : Except Err (Option Str) :=
  match getRebaseStateFilePath w with
  | .error e => .error e
  | .ok _ => if w.stateReadFails then .error .readStateFile else .ok w.stateFile

/-- `os.WriteFile(rebaseStateFile, ...)` in `executeRebaseLoop`, its error ignored: when
`getRebaseStateFilePath` failed the path is empty and nothing is written. -/
def writeStateFile (w : World) (text : Str) : World :=
  if w.inRepo then { w with stateFile := some text } else w

/-- `os.Remove(rebaseStateFile)` in `executeRebaseLoop`, its error ignored. -/
def removeStateFile (w : World) : World :=
  if w.inRepo then { w with stateFile := none } else w

/-- `runGitCommand`: runs `c`; `true` when it succeeds. -/
def runGitCommand (g : Git) (c : GitCmd) (w : World) : Bool × World :=
  ((g w.log c).isSome, { w with log := w.log ++ [c] })

/-- `getCurrentBranch`: the trimmed output of `git rev-parse --abbrev-ref HEAD`. -/
def getCurrentBranch (g : Git) (w : World) : Except Err Str × World :=
  match g w.log .revParse with
  | none => (.error .currentBranchFailed, { w with log := w.log ++ [.revParse] })
  | some output => (.ok (trimSpace output), { w with log := w.log ++ [.revParse] })

/-- `stashPushIfDirty`: stashes when `git status --porcelain` prints something other than
white space; `true` when a stash was made. -/
def stashPushIfDirty (g : Git) (w : World) : Except Err Bool × World :=
  match g w.log .status with
  | none => (.error .statusFailed, { w with log := w.log ++ [.status] })
  | some output =>
    let w1 := { w with log := w.log ++ [.status] }
    if (trimSpace output).length = 0 then (.ok false, w1)
    else
      match runGitCommand g .stashPush w1 with
      | (false, w2) => (.error .stashFailed, w2)
      | (true, w2) => (.ok true, w2)

/-- The auto-stash of a command: `didStash` stays `false` unless `shouldStash` is set and
`stashPushIfDirty` stashes. -/
def autoStash (g : Git) (shouldStash : Bool) (w : World) : Except Err Bool × World :=
  if shouldStash then stashPushIfDirty g w else (.ok false, w)

/-- `stashPop`. -/
def stashPop (g : Git) (w : World) : Outcome × World :=
  match runGitCommand g .stashPop w with
  | (false, w1) => (.error (.command .stashPop), w1)
  | (true, w1) => (.ok, w1)

/-! ## The rebase of the stack -/

/-- The slice access `stack[i]`: `none` is the panic "index out of range". -/
def index (stack : List Str) (i : Int) : Option Str :=
  if 0 ≤ i then stack[i.toNat]? else none

/-- The text of the rebase state file: `fmt.Sprintf("%s\n%d\n%t", ...)`. -/
def checkpointText (originalBranch : Str) (lastSuccessfulIndex : Int) (didStash : Bool) : Str :=
  originalBranch ++ '\n' :: formatInt lastSuccessfulIndex ++ '\n' :: formatBool didStash

/-- The `for i := startIndex; i < len(stack); i++` loop of `executeRebaseLoop`, run for
`remaining` more values of `i`: the loop is entered with
`remaining = len(stack) - startIndex`, or zero when that is negative. -/
def rebaseSteps (g : Git) (stack : List Str) (originalBranch : Str) (didStash : Bool) :
    Nat → Int → World → Outcome × World
  | 0, _, w => (.ok, w)
  | remaining + 1, i, w =>
    match index stack i with
    | none => (.crash, w)
    | some branchToRebase =>
      match index stack (i - 1) with
      | none => (.crash, w)
      | some rebaseOnto =>
        match runGitCommand g (.checkout branchToRebase) w with
        | (false, w1) => (.error (.command (.checkout branchToRebase)), w1)
        | (true, w1) =>
          match runGitCommand g (.rebase rebaseOnto) w1 with
          | (false, w2) =>
            (.error (.command (.rebase rebaseOnto)),
              writeStateFile w2 (checkpointText originalBranch (i - 1) didStash))
          | (true, w2) => rebaseSteps g stack originalBranch didStash remaining (i + 1) w2

/-- The loop of `executeRebaseLoop` from `startIndex` on and, when it ends without an
error, the removal of the rebase state file. -/
def rebaseFrom (g : Git) (stack : List Str) (originalBranch : Str) (didStash : Bool)
    (startIndex : Int) (w : World) : Outcome × World :=
  match rebaseSteps g stack originalBranch didStash
      ((stack.length : Int) - startIndex).toNat startIndex w with
  | (.ok, w1) => (.ok, removeStateFile w1)
  | r => r

/-- `executeRebaseLoop`. -/
def executeRebaseLoop (g : Git) (stack : List Str) (originalBranch : Str) (startIndex : Int)
    (shouldPull didStash : Bool) (w : World) : Outcome × World :=
  if startIndex = 0 then
    match index stack 0 with
    | none => (.crash, w)
    | some baseBranch =>
      match runGitCommand g (.checkout baseBranch) w with
      | (false, w1) => (.error (.command (.checkout baseBranch)), w1)
      | (true, w1) =>
        if shouldPull then
          match runGitCommand g .pull w1 with
          | (false, w2) => (.error (.command .pull), w2)
          | (true, w2) => rebaseFrom g stack originalBranch didStash 1 w2
        else rebaseFrom g stack originalBranch didStash 1 w1
  else rebaseFrom g stack originalBranch didStash startIndex w

/-- The end of `rebaseCmd` and of `cmdRebaseContinue` once `executeRebaseLoop` has
returned: on success the original branch is checked out and the stash, if one was made, is
popped. -/
def returnToOriginal (g : Git) (originalBranch : Str) (didStash : Bool)
    (r : Outcome × World) : Outcome × World :=
  match r with
  | (.ok, w) =>
    match runGitCommand g (.checkout originalBranch) w with
    | (false, w1) => (.error (.command (.checkout originalBranch)), w1)
    | (true, w1) => if didStash then stashPop g w1 else (.ok, w1)
  | r => r

/-- The reading of the rebase state file in `cmdRebaseContinue`: the trimmed content is
split on newlines; exactly three fields give the original branch, the last successful
index and the stash flag (the errors of `Atoi` and `ParseBool` are ignored). -/
def parseCheckpoint (content : Str) : Option (Str × Int × Bool) :=
  match splitNewline (trimSpace content) with
  | [part0, part1, part2] => some (part0, atoi part1, parseBool part2)
  | _ => none

/-- `cmdRebaseContinue`: `git stack rebase --continue`. -/
def cmdRebaseContinue (g : Git) (w : World) : Outcome × World :=
  match readStateFile w with
  | .error e => (.error e, w)
  | .ok none => (.error .noRebaseInProgress, w)
  | .ok (some content) =>
    match parseCheckpoint content with
    | none => (.error .invalidStateFile, w)
    | some (originalBranch, lastSuccessfulIndex, didStash) =>
      match readStack w with
      | .error e => (.error e, w)
      | .ok lines =>
        returnToOriginal g originalBranch didStash
          (executeRebaseLoop g lines originalBranch (wrapInt (lastSuccessfulIndex + 1)) false
            didStash w)

/-- `rebaseCmd` without `--continue`: `git stack rebase`. -/
def rebaseStart (g : Git) (shouldStash shouldPull : Bool) (w : World) : Outcome × World :=
  match getRebaseStateFilePath w with
  | .error e => (.error e, w)
  | .ok _ =>
    let w0 := { w with stateFile := none }
    match autoStash g shouldStash w0 with
    | (.error e, w1) => (.error e, w1)
    | (.ok didStash, w1) =>
      match getCurrentBranch g w1 with
      | (.error e, w2) => (.error e, w2)
      | (.ok originalBranch, w2) =>
        match readStack w2 with
        | .error e => (.error e, w2)
        | .ok lines =>
          if lines.length < 2 then (.ok, w2)
          else
            returnToOriginal g originalBranch didStash
              (executeRebaseLoop g lines originalBranch 0 shouldPull didStash w2)

/-- `rebaseCmd`: `git stack rebase [--pull] [--continue]`. -/
def rebaseCmd (g : Git) (shouldStash shouldPull isContinue : Bool) (w : World) :
    Outcome × World :=
  if isContinue then cmdRebaseContinue g w else rebaseStart g shouldStash shouldPull w

/-! ## The command sequences of the specification -/

/-- The steps `start, ..., stop - 1` of the sequential rebase in the words of the
specification: for each `j`, in increasing order, checkout `stack[j]`, then rebase onto
`stack[j-1]`. -/
def stepCmds (stack : List Str) (start stop : Nat) : List GitCmd :=
  (List.range (stop - start)).flatMap fun k =>
    [GitCmd.checkout (stack.getD (start + k) []), GitCmd.rebase (stack.getD (start + k - 1) [])]

/-- The end of a rebase in the words of the specification: checkout the original branch,
then pop the stash if and only if one was made. -/
def finishCmds (originalBranch : Str) (stashed : Bool) : List GitCmd :=
  GitCmd.checkout originalBranch :: (if stashed then [GitCmd.stashPop] else [])

/-- The base step in the words of the specification: checkout `stack[0]`, then pull if
`pullBase`. -/
def baseCmds (stack : List Str) (pullBase : Bool) : List GitCmd :=
  GitCmd.checkout (stack.getD 0 []) :: (if pullBase then [GitCmd.pull] else [])

/-- What `Start` issues in the words of the specification: the base step, the steps
`1, ..., len(stack) - 1`, then the end. -/
def startCmds (stack : List Str) (pullBase : Bool) (originalBranch : Str) (stashed : Bool) :
    List GitCmd :=
  baseCmds stack pullBase ++ stepCmds stack 1 stack.length ++ finishCmds originalBranch stashed

/-- What `Resume` issues in the words of the specification: the steps
`i, ..., len(stack) - 1`, then the end. -/
def resumeCmds (stack : List Str) (i : Nat) (originalBranch : Str) (stashed : Bool) :
    List GitCmd :=
  stepCmds stack i stack.length ++ finishCmds originalBranch stashed

/-- The commands `cmds`, issued in this order after the commands `history`, all succeed. -/
def RunsOk (g : Git) : List GitCmd → List GitCmd → Prop
  | _, [] => True
  | history, c :: cs => (g history c).isSome = true ∧ RunsOk g (history ++ [c]) cs

/-- A git in which every command succeeds; `status` prints `statusOut`, `rev-parse` prints
`branchOut`. -/
def gitAlways (statusOut branchOut : Str) : Git := fun _ c =>
  match c with
  | .status => some statusOut
  | .revParse => some branchOut
  | _ => some []

/-- A git in which the command `bad` fails and every other command succeeds. -/
def gitFailing (statusOut branchOut : Str) (bad : GitCmd) : Git := fun h c =>
  if c = bad then none else gitAlways statusOut branchOut h c


/-- The result `r` of a run from the state `w` issued the commands of `w` and maybe more,
and an error in it is the error of a git command issued by that run. -/
def CommandErrorsOnly (w : World) (r : Outcome × World) : Prop :=
  w.log.length ≤ r.2.log.length ∧
    ∀ e, r.1 = .error e → (∃ c, e = Err.command c) ∧ w.log.length < r.2.log.length

/-! ## Lemmas on command sequences -/

theorem runsOk_append (g : Git) (h a b : List GitCmd) :
    RunsOk g h (a ++ b) ↔ RunsOk g h a ∧ RunsOk g (h ++ a) b := by
  induction a generalizing h with
  | nil => simp [RunsOk]
  | cons c cs ih =>
    have ih2 := ih (h ++ [c])
    simp only [List.append_assoc, List.singleton_append] at ih2
    show (g h c).isSome = true ∧ RunsOk g (h ++ [c]) (cs ++ b) ↔
      ((g h c).isSome = true ∧ RunsOk g (h ++ [c]) cs) ∧ RunsOk g (h ++ c :: cs) b
    rw [ih2, and_assoc]

theorem stepCmds_empty (stack : List Str) (start stop : Nat) (h : stop ≤ start) :
    stepCmds stack start stop = [] := by
  simp [stepCmds, Nat.sub_eq_zero_of_le h]

theorem stepCmds_cons (stack : List Str) (start stop : Nat) (h : start < stop) :
    stepCmds stack start stop =
      GitCmd.checkout (stack.getD start []) :: GitCmd.rebase (stack.getD (start - 1) []) ::
        stepCmds stack (start + 1) stop := by
  unfold stepCmds
  obtain ⟨d, hd⟩ : ∃ d, stop - start = d + 1 := ⟨stop - start - 1, by omega⟩
  have hd2 : stop - (start + 1) = d := by omega
  rw [hd, hd2, List.range_succ_eq_map]
  simp only [List.flatMap_cons, List.flatMap_map, Nat.add_zero, List.cons_append, List.nil_append,
    List.cons.injEq, true_and]
  congr 1
  funext k
  have e : start + (k + 1) = start + 1 + k := by omega
  simp only [Function.comp, Nat.succ_eq_add_one, e]

theorem index_ofNat (stack : List Str) (i : Nat) (h : i < stack.length) :
    index stack (i : Int) = some (stack.getD i []) := by
  simp [index, List.getD_eq_getElem?_getD, List.getElem?_eq_getElem h]

theorem index_pred (stack : List Str) (i : Nat) (h1 : 1 ≤ i) (h : i < stack.length) :
    index stack ((i : Int) - 1) = some (stack.getD (i - 1) []) := by
  have e : ((i : Int) - 1) = ((i - 1 : Nat) : Int) := by omega
  rw [e]
  exact index_ofNat stack (i - 1) (by omega)

/-- The loop from step `a` on, every command succeeding: the steps are issued in order and
the loop ends without an error. -/
theorem rebaseSteps_ok (g : Git) (stack : List Str) (orig : Str) (st : Bool) :
    ∀ (r a : Nat) (w : World), 1 ≤ a → a + r = stack.length →
      RunsOk g w.log (stepCmds stack a stack.length) →
      rebaseSteps g stack orig st r (a : Int) w =
        (.ok, { w with log := w.log ++ stepCmds stack a stack.length }) := by
  intro r
  induction r with
  | zero =>
    intro a w _ ha _
    simp [rebaseSteps, stepCmds_empty stack a stack.length (by omega)]
  | succ r ih =>
    intro a w h1 ha hok
    rw [stepCmds_cons stack a stack.length (by omega)] at hok ⊢
    obtain ⟨hc, hr, hrest⟩ := hok
    have e : ((a : Int) + 1) = ((a + 1 : Nat) : Int) := by omega
    simp only [List.append_assoc, List.singleton_append] at hrest hr
    have := ih (a + 1) { w with log := w.log ++ [GitCmd.checkout (stack.getD a []),
      GitCmd.rebase (stack.getD (a - 1) [])] } (by omega) (by omega)
      (by simpa using hrest)
    simp only [rebaseSteps, index_ofNat stack a (by omega), index_pred stack a h1 (by omega),
      runGitCommand, hc, hr, List.append_assoc, List.singleton_append, e, this]
    simp

/-- The loop from step `a` on, the rebase of step `i` being the first command to fail: the
checkpoint is written and the loop stops there. -/
theorem rebaseSteps_rebase_fails (g : Git) (stack : List Str) (orig : Str) (st : Bool)
    (i : Nat) (hi : i < stack.length) :
    ∀ (r a : Nat) (w : World), w.inRepo = true → 1 ≤ a → a ≤ i → a + r = stack.length →
      RunsOk g w.log (stepCmds stack a i ++ [GitCmd.checkout (stack.getD i [])]) →
      g (w.log ++ (stepCmds stack a i ++ [GitCmd.checkout (stack.getD i [])]))
        (GitCmd.rebase (stack.getD (i - 1) [])) = none →
      rebaseSteps g stack orig st r (a : Int) w =
        (.error (.command (.rebase (stack.getD (i - 1) []))),
          { w with
            log := w.log ++ (stepCmds stack a i ++
              [GitCmd.checkout (stack.getD i []), GitCmd.rebase (stack.getD (i - 1) [])])
            stateFile := some (checkpointText orig ((i : Int) - 1) st) }) := by
  intro r
  induction r with
  | zero => intro a w _ _ hai ha; omega
  | succ r ih =>
    intro a w hrepo h1 hai ha hok hfail
    rcases Nat.eq_or_lt_of_le hai with heq | hlt
    · subst heq
      rw [stepCmds_empty stack a a (le_refl a)] at hok hfail ⊢
      simp only [List.nil_append, RunsOk, and_true] at hok hfail
      simp only [rebaseSteps, index_ofNat stack a hi, index_pred stack a h1 hi, runGitCommand,
        hok, hfail, List.nil_append, List.append_assoc, List.singleton_append, Option.isSome_none,
        writeStateFile, hrepo, if_true]
    · rw [stepCmds_cons stack a i hlt] at hok hfail ⊢
      obtain ⟨hc, hr, hrest⟩ := hok
      have e : ((a : Int) + 1) = ((a + 1 : Nat) : Int) := by omega
      simp only [List.append_assoc, List.singleton_append] at hrest hr
      have := ih (a + 1) { w with log := w.log ++ [GitCmd.checkout (stack.getD a []),
        GitCmd.rebase (stack.getD (a - 1) [])] } hrepo (by omega) (by omega) (by omega)
        (by simpa using hrest) (by simpa using hfail)
      simp only [rebaseSteps, index_ofNat stack a (by omega), index_pred stack a h1 (by omega),
        runGitCommand, hc, hr, List.append_assoc, List.singleton_append, e, this]
      simp

/-- The loop from step `a` on, the checkout of step `i` being the first command to fail:
the loop stops there and writes nothing. -/
theorem rebaseSteps_checkout_fails (g : Git) (stack : List Str) (orig : Str) (st : Bool)
    (i : Nat) (hi : i < stack.length) :
    ∀ (r a : Nat) (w : World), 1 ≤ a → a ≤ i → a + r = stack.length →
      RunsOk g w.log (stepCmds stack a i) →
      g (w.log ++ stepCmds stack a i) (GitCmd.checkout (stack.getD i [])) = none →
      rebaseSteps g stack orig st r (a : Int) w =
        (.error (.command (.checkout (stack.getD i []))),
          { w with log := w.log ++ (stepCmds stack a i ++ [GitCmd.checkout (stack.getD i [])]) })
      := by
  intro r
  induction r with
  | zero => intro a w _ hai ha; omega
  | succ r ih =>
    intro a w h1 hai ha hok hfail
    rcases Nat.eq_or_lt_of_le hai with heq | hlt
    · subst heq
      rw [stepCmds_empty stack a a (le_refl a)] at hok hfail ⊢
      simp only [List.append_nil] at hfail
      simp only [rebaseSteps, index_ofNat stack a hi, index_pred stack a h1 hi, runGitCommand,
        hfail, List.nil_append, List.append_assoc, List.singleton_append, Option.isSome_none]
    · rw [stepCmds_cons stack a i hlt] at hok hfail ⊢
      obtain ⟨hc, hr, hrest⟩ := hok
      have e : ((a : Int) + 1) = ((a + 1 : Nat) : Int) := by omega
      simp only [List.append_assoc, List.singleton_append] at hrest hr
      have := ih (a + 1) { w with log := w.log ++ [GitCmd.checkout (stack.getD a []),
        GitCmd.rebase (stack.getD (a - 1) [])] } (by omega) (by omega) (by omega)
        (by simpa using hrest) (by simpa using hfail)
      simp only [rebaseSteps, index_ofNat stack a (by omega), index_pred stack a h1 (by omega),
        runGitCommand, hc, hr, List.append_assoc, List.singleton_append, e, this]
      simp

theorem toNat_length_sub (stack : List Str) (a : Nat) :
    ((stack.length : Int) - (a : Int)).toNat = stack.length - a := by
  omega

theorem rebaseFrom_ok (g : Git) (stack : List Str) (orig : Str) (st : Bool) (a : Nat)
    (w : World) (hrepo : w.inRepo = true) (h1 : 1 ≤ a) (ha : a ≤ stack.length)
    (hok : RunsOk g w.log (stepCmds stack a stack.length)) :
    rebaseFrom g stack orig st (a : Int) w =
      (.ok, { w with log := w.log ++ stepCmds stack a stack.length, stateFile := none }) := by
  simp only [rebaseFrom, toNat_length_sub,
    rebaseSteps_ok g stack orig st (stack.length - a) a w h1 (by omega) hok, removeStateFile,
    hrepo, if_true]

theorem rebaseFrom_rebase_fails (g : Git) (stack : List Str) (orig : Str) (st : Bool)
    (i a : Nat) (w : World) (hrepo : w.inRepo = true) (hi : i < stack.length) (h1 : 1 ≤ a)
    (hai : a ≤ i)
    (hok : RunsOk g w.log (stepCmds stack a i ++ [GitCmd.checkout (stack.getD i [])]))
    (hfail : g (w.log ++ (stepCmds stack a i ++ [GitCmd.checkout (stack.getD i [])]))
      (GitCmd.rebase (stack.getD (i - 1) [])) = none) :
    rebaseFrom g stack orig st (a : Int) w =
      (.error (.command (.rebase (stack.getD (i - 1) []))),
        { w with
          log := w.log ++ (stepCmds stack a i ++
            [GitCmd.checkout (stack.getD i []), GitCmd.rebase (stack.getD (i - 1) [])])
          stateFile := some (checkpointText orig ((i : Int) - 1) st) }) := by
  simp only [rebaseFrom, toNat_length_sub,
    rebaseSteps_rebase_fails g stack orig st i hi (stack.length - a) a w hrepo h1 hai (by omega)
      hok hfail]

theorem rebaseFrom_checkout_fails (g : Git) (stack : List Str) (orig : Str) (st : Bool)
    (i a : Nat) (w : World) (hi : i < stack.length) (h1 : 1 ≤ a) (hai : a ≤ i)
    (hok : RunsOk g w.log (stepCmds stack a i))
    (hfail : g (w.log ++ stepCmds stack a i) (GitCmd.checkout (stack.getD i [])) = none) :
    rebaseFrom g stack orig st (a : Int) w =
      (.error (.command (.checkout (stack.getD i []))),
        { w with log := w.log ++ (stepCmds stack a i ++ [GitCmd.checkout (stack.getD i [])]) })
    := by
  simp only [rebaseFrom, toNat_length_sub,
    rebaseSteps_checkout_fails g stack orig st i hi (stack.length - a) a w h1 hai (by omega) hok
      hfail]

/-- The base step of `executeRebaseLoop`, its commands succeeding: they are issued and the
loop is entered at step 1. -/
theorem executeRebaseLoop_base (g : Git) (stack : List Str) (orig : Str) (pull st : Bool)
    (w : World) (hlen : 1 ≤ stack.length) (hok : RunsOk g w.log (baseCmds stack pull)) :
    executeRebaseLoop g stack orig 0 pull st w =
      rebaseFrom g stack orig st 1 { w with log := w.log ++ baseCmds stack pull } := by
  have h0 : index stack 0 = some (stack.getD 0 []) := index_ofNat stack 0 (by omega)
  cases pull with
  | false =>
    simp only [baseCmds, RunsOk, and_true, Bool.false_eq_true, if_false] at hok
    simp only [executeRebaseLoop, h0, runGitCommand, hok, baseCmds, if_true, Bool.false_eq_true,
      if_false]
  | true =>
    simp only [baseCmds, RunsOk, and_true, if_true] at hok
    obtain ⟨hc, hp⟩ := hok
    simp only [executeRebaseLoop, h0, runGitCommand, hc, hp, baseCmds, if_true,
      List.append_assoc, List.singleton_append]

theorem autoStash_effect (g : Git) (shouldStash : Bool) (w w2 : World) (r : Except Err Bool)
    (h : autoStash g shouldStash w = (r, w2)) :
    ∃ setup, w2 = { w with log := w.log ++ setup } ∧
      (setup = [] ∨ setup = [GitCmd.status] ∨ setup = [GitCmd.status, GitCmd.stashPush]) ∧
      (r = .ok true → setup = [GitCmd.status, GitCmd.stashPush]) ∧
      (r = .ok false → GitCmd.stashPush ∉ setup) := by
  unfold autoStash at h
  cases shouldStash with
  | false =>
    simp only [Bool.false_eq_true, if_false, Prod.mk.injEq] at h
    obtain ⟨rfl, rfl⟩ := h
    exact ⟨[], by simp⟩
  | true =>
    simp only [if_true, stashPushIfDirty, runGitCommand] at h
    cases hs : g w.log GitCmd.status with
    | none =>
      simp only [hs, Prod.mk.injEq] at h
      obtain ⟨rfl, rfl⟩ := h
      exact ⟨[GitCmd.status], by simp⟩
    | some out =>
      simp only [hs] at h
      by_cases hd : (trimSpace out).length = 0
      · simp only [hd, if_true, Prod.mk.injEq] at h
        obtain ⟨rfl, rfl⟩ := h
        exact ⟨[GitCmd.status], by simp⟩
      · simp only [hd, if_false] at h
        cases hp : (g (w.log ++ [GitCmd.status]) GitCmd.stashPush).isSome with
        | false =>
          simp only [hp, Prod.mk.injEq] at h
          obtain ⟨rfl, rfl⟩ := h
          exact ⟨[GitCmd.status, GitCmd.stashPush], by simp⟩
        | true =>
          simp only [hp, Prod.mk.injEq] at h
          obtain ⟨rfl, rfl⟩ := h
          exact ⟨[GitCmd.status, GitCmd.stashPush], by simp⟩

theorem getCurrentBranch_effect (g : Git) (w w2 : World) (r : Except Err Str)
    (h : getCurrentBranch g w = (r, w2)) :
    w2 = { w with log := w.log ++ [GitCmd.revParse] } := by
  unfold getCurrentBranch at h
  cases hs : g w.log GitCmd.revParse with
  | none => simp only [hs, Prod.mk.injEq] at h; exact h.2.symm
  | some out => simp only [hs, Prod.mk.injEq] at h; exact h.2.symm

theorem readStack_inRepo (w : World) (stack : List Str) (h : readStack w = .ok stack) :
    w.inRepo = true := by
  cases hr : w.inRepo with
  | true => rfl
  | false => simp [readStack, getStackFilePath, getGitDir, hr] at h

theorem readStack_congr (w w2 : World) (h1 : w2.inRepo = w.inRepo)
    (h2 : w2.stackOpenFails = w.stackOpenFails) (h3 : w2.stackFile = w.stackFile) :
    readStack w2 = readStack w := by
  simp only [readStack, getStackFilePath, getGitDir, h1, h2, h3]

/-- The start of `rebaseCmd`: after the removal of the state file, the auto-stash and the
query of the current branch, a stack of two branches or more that was read without error
is handed to `executeRebaseLoop`. -/
theorem rebaseCmd_setup (g : Git) (w w2 w3 : World) (shouldStash pullBase stashed : Bool)
    (originalBranch : Str) (stack : List Str)
    (hstash : autoStash g shouldStash { w with stateFile := none } = (.ok stashed, w2))
    (hbranch : getCurrentBranch g w2 = (.ok originalBranch, w3))
    (hread : readStack w = .ok stack)
    (hlen : 2 ≤ stack.length) :
    rebaseCmd g shouldStash pullBase false w =
        returnToOriginal g originalBranch stashed
          (executeRebaseLoop g stack originalBranch 0 pullBase stashed w3) ∧
      w3.stackFile = w.stackFile ∧ w3.stateFile = none ∧ w3.inRepo = true := by
  obtain ⟨setup, hw2, -⟩ := autoStash_effect g shouldStash _ w2 _ hstash
  have h3 := getCurrentBranch_effect g w2 w3 _ hbranch
  have hrepo := readStack_inRepo w stack hread
  have hsf : w3.stackFile = w.stackFile := by rw [h3, hw2]
  have hst : w3.stateFile = none := by rw [h3, hw2]
  have hir : w3.inRepo = true := by rw [h3, hw2]; exact hrepo
  have hrs : readStack w3 = .ok stack := by
    rw [readStack_congr w w3 (by rw [h3, hw2]) (by rw [h3, hw2]) hsf]
    exact hread
  refine ⟨?_, hsf, hst, hir⟩
  have hn : ¬ stack.length < 2 := by omega
  have hg : getRebaseStateFilePath w = .ok () := by
    simp [getRebaseStateFilePath, getGitDir, hrepo]
  simp only [rebaseCmd, rebaseStart, Bool.false_eq_true, if_false, hg, hstash, hbranch, hrs, hn]

/-- C1. On a stack of two branches or more (the stack that `Start` reads), with the
auto-stash done (`stashed` tells whether a stash was made) and the current branch queried
(`originalBranch`), if the commands of the specification succeed one after the other,
`Start` issues after the setup exactly: checkout `stack[0]`, pull if `pullBase`, then for
`i = 1, ..., n-1` checkout `stack[i]` and rebase onto `stack[i-1]`, then checkout
`originalBranch`, then `stash pop` if and only if a stash was made; it returns success, and
the setup itself is at most `status`, `stash push` and then the query of the branch. -/
theorem start_issues_exact_sequence (g : Git) (w w2 w3 : World)
    (shouldStash pullBase stashed : Bool) (originalBranch : Str) (stack : List Str)
    (hstash : autoStash g shouldStash { w with stateFile := none } = (.ok stashed, w2))
    (hbranch : getCurrentBranch g w2 = (.ok originalBranch, w3))
    (hread : readStack w = .ok stack)
    (hlen : 2 ≤ stack.length)
    (hok : RunsOk g w3.log (startCmds stack pullBase originalBranch stashed)) :
    rebaseCmd g shouldStash pullBase false w =
        (.ok, { w3 with log := w3.log ++ startCmds stack pullBase originalBranch stashed }) ∧
      w3.stackFile = w.stackFile ∧ w3.stateFile = none ∧
      ∃ setup, w3.log = w.log ++ setup ++ [GitCmd.revParse] ∧
        (setup = [] ∨ setup = [GitCmd.status] ∨ setup = [GitCmd.status, GitCmd.stashPush]) ∧
        (stashed = true ↔ GitCmd.stashPush ∈ setup) := by
  obtain ⟨hrun, hsf, hst, hir⟩ := rebaseCmd_setup g w w2 w3 shouldStash pullBase stashed
    originalBranch stack hstash hbranch hread hlen
  obtain ⟨setup, hw2, hcases, htrue, hfalse⟩ := autoStash_effect g shouldStash _ w2 _ hstash
  have h3 := getCurrentBranch_effect g w2 w3 _ hbranch
  refine ⟨?_, hsf, hst, setup, ?_, hcases, ?_⟩
  · rw [hrun]
    simp only [startCmds, runsOk_append] at hok
    obtain ⟨⟨hbase, hsteps⟩, hfin⟩ := hok
    have hfrom := rebaseFrom_ok g stack originalBranch stashed 1
      { w3 with log := w3.log ++ baseCmds stack pullBase } hir (le_refl 1) (by omega) hsteps
    rw [Nat.cast_one] at hfrom
    rw [executeRebaseLoop_base g _ originalBranch pullBase stashed w3 (by omega) hbase, hfrom]
    cases stashed with
    | false =>
      simp only [finishCmds, RunsOk, Bool.false_eq_true, if_false, and_true] at hfin
      simp only [returnToOriginal, runGitCommand, hfin, startCmds, finishCmds,
        Bool.false_eq_true, if_false, List.append_assoc, hst]
    | true =>
      simp only [finishCmds, RunsOk, if_true, and_true] at hfin
      obtain ⟨hco, hpop⟩ := hfin
      simp only [List.append_assoc] at hpop
      simp only [returnToOriginal, runGitCommand, hco, hpop, startCmds, finishCmds, stashPop,
        if_true, List.append_assoc, List.singleton_append, List.cons_append, List.nil_append, hst]
  · rw [h3, hw2]
  · cases stashed with
    | false => simpa using hfalse rfl
    | true => simp [htrue rfl]

theorem wrapInt_of_lt (x : Int) (h0 : -2 ^ 63 ≤ x) (h1 : x < 2 ^ 63) : wrapInt x = x := by
  unfold wrapInt
  norm_num at h0 h1 ⊢
  omega

theorem returnToOriginal_error (g : Git) (orig : Str) (st : Bool) (e : Err) (w : World) :
    returnToOriginal g orig st (.error e, w) = (.error e, w) := rfl

theorem returnToOriginal_ok (g : Git) (orig : Str) (st : Bool) (w : World)
    (hok : RunsOk g w.log (finishCmds orig st)) :
    returnToOriginal g orig st (.ok, w) =
      (.ok, { w with log := w.log ++ finishCmds orig st }) := by
  cases st with
  | false =>
    simp only [finishCmds, RunsOk, Bool.false_eq_true, if_false, and_true] at hok
    simp only [returnToOriginal, runGitCommand, hok, finishCmds, Bool.false_eq_true, if_false]
  | true =>
    simp only [finishCmds, RunsOk, if_true, and_true] at hok
    obtain ⟨hco, hpop⟩ := hok
    simp only [returnToOriginal, runGitCommand, hco, hpop, finishCmds, stashPop, if_true,
      List.append_assoc, List.singleton_append]

/-- C2. On a stack of `n ≥ 2` branches (the stack that `Start` reads) and for
`1 ≤ i ≤ n-1`, if the commands before it succeed and the command `rebase stack[i-1]` of
step `i` fails, `Start` returns the error of that command, the rebase state file holds the
text of `{originalBranch, lastSuccessfulIndex = i-1, stashed}`, and the failed rebase is the
last command issued (no checkout of the original branch, no `stash pop`). -/
theorem start_rebase_failure_checkpoints (g : Git) (w w2 w3 : World)
    (shouldStash pullBase stashed : Bool) (originalBranch : Str) (stack : List Str) (i : Nat)
    (hstash : autoStash g shouldStash { w with stateFile := none } = (.ok stashed, w2))
    (hbranch : getCurrentBranch g w2 = (.ok originalBranch, w3))
    (hread : readStack w = .ok stack)
    (hi1 : 1 ≤ i) (hi : i < stack.length)
    (hok : RunsOk g w3.log
      (baseCmds stack pullBase ++ stepCmds stack 1 i ++ [GitCmd.checkout (stack.getD i [])]))
    (hfail : g
      (w3.log ++ (baseCmds stack pullBase ++ stepCmds stack 1 i ++
        [GitCmd.checkout (stack.getD i [])]))
      (GitCmd.rebase (stack.getD (i - 1) [])) = none) :
    rebaseCmd g shouldStash pullBase false w =
      (.error (.command (.rebase (stack.getD (i - 1) []))),
        { w3 with
          log := w3.log ++ (baseCmds stack pullBase ++ stepCmds stack 1 i ++
            [GitCmd.checkout (stack.getD i []), GitCmd.rebase (stack.getD (i - 1) [])])
          stateFile := some (checkpointText originalBranch ((i : Int) - 1) stashed) }) := by
  obtain ⟨hrun, -, -, hir⟩ := rebaseCmd_setup g w w2 w3 shouldStash pullBase stashed
    originalBranch stack hstash hbranch hread (by omega)
  rw [hrun]
  simp only [List.append_assoc, runsOk_append] at hok
  obtain ⟨hbase, hrest⟩ := hok
  have hfrom := rebaseFrom_rebase_fails g stack originalBranch stashed i 1
    { w3 with log := w3.log ++ baseCmds stack pullBase } hir hi (le_refl 1) hi1
    ((runsOk_append _ _ _ _).2 (by simpa only [List.append_assoc] using hrest))
    (by simpa only [List.append_assoc] using hfail)
  rw [Nat.cast_one] at hfrom
  rw [executeRebaseLoop_base g _ originalBranch pullBase stashed w3 (by omega) hbase, hfrom,
    returnToOriginal_error]
  simp only [List.append_assoc]

/-- C3. With a stack of `n ≥ 2` branches (the stack that `Resume` reads), `1 ≤ i ≤ n-1`
and a rebase state file that reads as the checkpoint
`{originalBranch, lastSuccessfulIndex = i-1, stashed}`, if the commands of the
specification succeed one after the other, `Resume` issues exactly: for `j = i, ..., n-1`
checkout `stack[j]` and rebase onto `stack[j-1]`, then checkout `originalBranch`, then
`stash pop` if and only if `stashed`; nothing else is issued (no base checkout, no pull, no
earlier step), it returns success and the rebase state file is removed. -/
theorem resume_issues_exact_sequence (g : Git) (w : World) (content originalBranch : Str)
    (stashed : Bool) (stack : List Str) (i : Nat)
    (hstate : readStateFile w = .ok (some content))
    (hload : parseCheckpoint content = some (originalBranch, (i : Int) - 1, stashed))
    (hread : readStack w = .ok stack)
    (hi1 : 1 ≤ i) (hi : i < stack.length)
    (hsize : stack.length < 2 ^ 63)
    (hok : RunsOk g w.log (resumeCmds stack i originalBranch stashed)) :
    cmdRebaseContinue g w =
      (.ok, { w with
        log := w.log ++ resumeCmds stack i originalBranch stashed
        stateFile := none }) := by
  have hw : wrapInt ((i : Int) - 1 + 1) = (i : Int) := by
    have hi63 : (i : Int) < 2 ^ 63 := by
      have : i < 2 ^ 63 := by omega
      exact_mod_cast this
    have e : (i : Int) - 1 + 1 = (i : Int) := by omega
    rw [e]
    exact wrapInt_of_lt _ (by norm_num; omega) hi63
  have hne : ¬ ((i : Int) = 0) := by omega
  have hrepo := readStack_inRepo w stack hread
  simp only [resumeCmds, runsOk_append] at hok
  obtain ⟨hsteps, hfin⟩ := hok
  simp only [cmdRebaseContinue, hstate, hload, hread, hw, executeRebaseLoop, hne, if_false]
  rw [rebaseFrom_ok g _ originalBranch stashed i w hrepo hi1 (by omega) hsteps,
    returnToOriginal_ok g originalBranch stashed _ hfin]
  simp only [resumeCmds, List.append_assoc]

/-- C8, as amended. On a stack of `n ≥ 2` branches (the stack that `Start` reads) and for
`1 ≤ i ≤ n-1`, if the commands before it succeed and the checkout of `stack[i]` fails,
`Start` returns the error of that checkout, which is the last command issued, and no
checkpoint is written: the rebase state file, removed when `Start` began, stays absent, so
that a following `Resume` (for which reading the state file does not fail otherwise) ends
with "no rebase in progress". -/
theorem start_checkout_failure_writes_no_checkpoint (g : Git) (w w2 w3 : World)
    (shouldStash pullBase stashed : Bool) (originalBranch : Str) (stack : List Str) (i : Nat)
    (hstash : autoStash g shouldStash { w with stateFile := none } = (.ok stashed, w2))
    (hbranch : getCurrentBranch g w2 = (.ok originalBranch, w3))
    (hread : readStack w = .ok stack)
    (hstateRead : w.stateReadFails = false)
    (hi1 : 1 ≤ i) (hi : i < stack.length)
    (hok : RunsOk g w3.log (baseCmds stack pullBase ++ stepCmds stack 1 i))
    (hfail : g (w3.log ++ (baseCmds stack pullBase ++ stepCmds stack 1 i))
      (GitCmd.checkout (stack.getD i [])) = none) :
    rebaseCmd g shouldStash pullBase false w =
        (.error (.command (.checkout (stack.getD i []))),
          { w3 with
            log := w3.log ++ (baseCmds stack pullBase ++ stepCmds stack 1 i ++
              [GitCmd.checkout (stack.getD i [])]) }) ∧
      (rebaseCmd g shouldStash pullBase false w).2.stateFile = none ∧
      ∀ g2 : Git, cmdRebaseContinue g2 (rebaseCmd g shouldStash pullBase false w).2 =
        (.error .noRebaseInProgress, (rebaseCmd g shouldStash pullBase false w).2) := by
  obtain ⟨hrun, -, hst, hir⟩ := rebaseCmd_setup g w w2 w3 shouldStash pullBase stashed
    originalBranch stack hstash hbranch hread (by omega)
  obtain ⟨setup, hw2, -⟩ := autoStash_effect g shouldStash _ w2 _ hstash
  have h3 := getCurrentBranch_effect g w2 w3 _ hbranch
  have hsr : w3.stateReadFails = false := by rw [h3, hw2]; exact hstateRead
  simp only [runsOk_append] at hok
  obtain ⟨hbase, hrest⟩ := hok
  have hfrom := rebaseFrom_checkout_fails g stack originalBranch stashed i 1
    { w3 with log := w3.log ++ baseCmds stack pullBase } hi (le_refl 1) hi1
    hrest (by simpa only [List.append_assoc] using hfail)
  rw [Nat.cast_one] at hfrom
  have hres : rebaseCmd g shouldStash pullBase false w =
      (.error (.command (.checkout (stack.getD i []))),
        { w3 with
          log := w3.log ++ (baseCmds stack pullBase ++ stepCmds stack 1 i ++
            [GitCmd.checkout (stack.getD i [])]) }) := by
    rw [hrun, executeRebaseLoop_base g _ originalBranch pullBase stashed w3 (by omega) hbase,
      hfrom, returnToOriginal_error]
    simp only [List.append_assoc]
  refine ⟨hres, ?_, ?_⟩
  · rw [hres]; exact hst
  · intro g2
    rw [hres]
    simp only [cmdRebaseContinue, readStateFile, getRebaseStateFilePath, getGitDir, hir, hsr,
      hst, if_true, Bool.false_eq_true, if_false]

theorem runsOk_gitAlways (a b : Str) (cmds : List GitCmd) :
    ∀ h, RunsOk (gitAlways a b) h cmds := by
  induction cmds with
  | nil => intro h; trivial
  | cons c cs ih =>
    intro h
    refine ⟨?_, ih _⟩
    cases c <;> rfl

theorem runsOk_gitFailing (a b : Str) (bad : GitCmd) (cmds : List GitCmd)
    (hbad : bad ∉ cmds) : ∀ h, RunsOk (gitFailing a b bad) h cmds := by
  induction cmds with
  | nil => intro h; trivial
  | cons c cs ih =>
    intro h
    have hc : c ≠ bad := fun e => hbad (by simp [e])
    refine ⟨?_, ih (fun hm => hbad (List.mem_cons_of_mem _ hm)) _⟩
    simp only [gitFailing, hc, if_false]
    cases c <;> rfl

/-- C1 at the stack `a, b, c` with a dirty working tree, on the branch `work`. -/
theorem start_issues_exact_sequence_witness :
    rebaseCmd (gitAlways " M f\n".toList "work\n".toList) true true false
        ⟨some "a\nb\nc\n".toList, none, [], true, false, false⟩ =
      (.ok, ⟨some "a\nb\nc\n".toList, none, [.status, .stashPush, .revParse, .checkout "a".toList, .pull, .checkout "b".toList,
          .rebase "a".toList, .checkout "c".toList, .rebase "b".toList,
          .checkout "work".toList, .stashPop], true, false, false⟩) :=
  (start_issues_exact_sequence (gitAlways " M f\n".toList "work\n".toList)
    ⟨some "a\nb\nc\n".toList, none, [], true, false, false⟩
    ⟨some "a\nb\nc\n".toList, none, [.status, .stashPush], true, false, false⟩
    ⟨some "a\nb\nc\n".toList, none, [.status, .stashPush, .revParse], true, false, false⟩
    true true true "work".toList ["a".toList, "b".toList, "c".toList] rfl rfl (by decide)
    (by decide) (runsOk_gitAlways _ _ _ _)).1

/-- C2 at the stack `a, b, c`, the rebase of `c` onto `b` failing (step 2). -/
theorem start_rebase_failure_checkpoints_witness :
    rebaseCmd (gitFailing " M f\n".toList "work\n".toList (.rebase "b".toList)) true true false
        ⟨some "a\nb\nc\n".toList, none, [], true, false, false⟩ =
      (.error (.command (.rebase "b".toList)),
        ⟨some "a\nb\nc\n".toList, some "work\n1\ntrue".toList, [.status, .stashPush, .revParse, .checkout "a".toList, .pull, .checkout "b".toList,
            .rebase "a".toList, .checkout "c".toList, .rebase "b".toList], true, false, false⟩) :=
  start_rebase_failure_checkpoints
    (gitFailing " M f\n".toList "work\n".toList (.rebase "b".toList))
    ⟨some "a\nb\nc\n".toList, none, [], true, false, false⟩
    ⟨some "a\nb\nc\n".toList, none, [.status, .stashPush], true, false, false⟩
    ⟨some "a\nb\nc\n".toList, none, [.status, .stashPush, .revParse], true, false, false⟩
    true true true "work".toList ["a".toList, "b".toList, "c".toList] 2 rfl rfl (by decide)
    (by decide) (by decide) (runsOk_gitFailing _ _ _ _ (by decide) _) rfl

/-- C3 at the stack `a, b, c` and the checkpoint written by the failure of step 2. -/
theorem resume_issues_exact_sequence_witness :
    cmdRebaseContinue (gitAlways [] [])
        ⟨some "a\nb\nc\n".toList, some "work\n1\ntrue".toList, [], true, false, false⟩ =
      (.ok, ⟨some "a\nb\nc\n".toList, none, [.checkout "c".toList, .rebase "b".toList, .checkout "work".toList, .stashPop], true, false, false⟩) :=
  resume_issues_exact_sequence (gitAlways [] [])
    ⟨some "a\nb\nc\n".toList, some "work\n1\ntrue".toList, [], true, false, false⟩
    "work\n1\ntrue".toList "work".toList true ["a".toList, "b".toList, "c".toList] 2
    (by decide) (by decide) (by decide) (by decide) (by decide) (by decide)
    (runsOk_gitAlways _ _ _ _)

/-- C8 as stated fails: on the stack `a, b`, the checkout of `b` (step 1) failing, `Start`
returns that error and the rebase state file does not hold the checkpoint
`{work, 0, false}`: there is no rebase state file. -/
theorem start_checkout_failure_counterexample :
    rebaseCmd (gitFailing [] "work\n".toList (.checkout "b".toList)) true true false
        ⟨some "a\nb\n".toList, none, [], true, false, false⟩ =
      (.error (.command (.checkout "b".toList)),
        ⟨some "a\nb\n".toList, none, [.status, .revParse, .checkout "a".toList, .pull, .checkout "b".toList], true, false, false⟩) ∧
    (rebaseCmd (gitFailing [] "work\n".toList (.checkout "b".toList)) true true false
        ⟨some "a\nb\n".toList, none, [], true, false, false⟩).2.stateFile ≠
      some (checkpointText "work".toList 0 false) := by
  decide

/-- C8 as amended, at the stack `a, b`. -/
theorem start_checkout_failure_writes_no_checkpoint_witness :
    (rebaseCmd (gitFailing [] "work\n".toList (.checkout "b".toList)) true true false
        ⟨some "a\nb\n".toList, none, [], true, false, false⟩).2.stateFile = none :=
  (start_checkout_failure_writes_no_checkpoint
    (gitFailing [] "work\n".toList (.checkout "b".toList))
    ⟨some "a\nb\n".toList, none, [], true, false, false⟩
    ⟨some "a\nb\n".toList, none, [.status], true, false, false⟩
    ⟨some "a\nb\n".toList, none, [.status, .revParse], true, false, false⟩
    true true false "work".toList ["a".toList, "b".toList] 1 rfl rfl (by decide) rfl
    (by decide) (by decide) (runsOk_gitFailing _ _ _ _ (by decide) _) rfl).2.1

/-- C4 fails on the code: with the auto-stash enabled and a dirty working tree, `Start` on
a stack of one branch, and on an empty stack, runs `git status`, `git stash push` and
`git rev-parse`, and returns success without `git stash pop`. -/
theorem start_short_stack_stashes :
    rebaseCmd (gitAlways " M f\n".toList "main\n".toList) true true false
        ⟨some "main\n".toList, none, [], true, false, false⟩ =
      (.ok, ⟨some "main\n".toList, none, [.status, .stashPush, .revParse], true, false, false⟩) ∧
    rebaseCmd (gitAlways " M f\n".toList "main\n".toList) true true false
        ⟨none, none, [], true, false, false⟩ =
      (.ok, ⟨none, none, [.status, .stashPush, .revParse], true, false, false⟩) := by
  decide

/-- C5 fails on the code: popping the stack file `main` (one line) returns `main` and
leaves a file that holds one newline, on which `readLines` returns one empty line and not
the empty sequence. -/
theorem pop_last_branch_leaves_empty_line :
    readLines false (some "main\n".toList) = .ok ["main".toList] ∧
    popBranch (some "main\n".toList) = some ("main".toList, some "\n".toList) ∧
    readLines false (some "\n".toList) = .ok [[]] ∧
    readLines false (some "\n".toList) ≠ .ok [] := by
  decide

/-! ## Index safety -/

theorem index_isSome (stack : List Str) (i : Int) (h0 : 0 ≤ i) (h1 : i < stack.length) :
    ∃ x, index stack i = some x := by
  have hlt : i.toNat < stack.length := by omega
  exact ⟨stack[i.toNat], by simp [index, h0, List.getElem?_eq_getElem hlt]⟩

/-- The loop reads `stack[i]` and `stack[i-1]` in range when it starts at 1 or above. -/
theorem rebaseSteps_no_crash (g : Git) (stack : List Str) (orig : Str) (st : Bool) :
    ∀ (r : Nat) (i : Int) (w : World), 1 ≤ i → i + r ≤ stack.length →
      (rebaseSteps g stack orig st r i w).1 ≠ .crash := by
  intro r
  induction r with
  | zero => intro i w _ _; simp [rebaseSteps]
  | succ r ih =>
    intro i w h1 hr
    obtain ⟨x, hx⟩ := index_isSome stack i (by omega) (by push_cast at hr; omega)
    obtain ⟨y, hy⟩ := index_isSome stack (i - 1) (by omega) (by push_cast at hr; omega)
    cases hc : (g w.log (GitCmd.checkout x)).isSome with
    | false => simp [rebaseSteps, hx, hy, runGitCommand, hc]
    | true =>
      cases hr2 : (g (w.log ++ [GitCmd.checkout x]) (GitCmd.rebase y)).isSome with
      | false => simp [rebaseSteps, hx, hy, runGitCommand, hc, hr2]
      | true =>
        simp only [rebaseSteps, hx, hy, runGitCommand, hc, hr2]
        exact ih (i + 1) _ (by omega) (by push_cast at hr; omega)

theorem rebaseFrom_no_crash (g : Git) (stack : List Str) (orig : Str) (st : Bool) (i : Int)
    (w : World) (h1 : 1 ≤ i) : (rebaseFrom g stack orig st i w).1 ≠ .crash := by
  have h := rebaseSteps_no_crash g stack orig st ((stack.length : Int) - i).toNat i w h1
  unfold rebaseFrom
  by_cases hle : i ≤ stack.length
  · have h2 := h (by omega)
    split
    · simp
    · exact h2
  · have hz : ((stack.length : Int) - i).toNat = 0 := by omega
    rw [hz]
    simp [rebaseSteps]

theorem executeRebaseLoop_no_crash (g : Git) (stack : List Str) (orig : Str) (startIndex : Int)
    (pull st : Bool) (w : World) (h : 1 ≤ startIndex ∨ (startIndex = 0 ∧ stack ≠ [])) :
    (executeRebaseLoop g stack orig startIndex pull st w).1 ≠ .crash := by
  unfold executeRebaseLoop
  rcases h with h | ⟨h, hne⟩
  · have hne : ¬ startIndex = 0 := by omega
    simp only [hne, if_false]
    exact rebaseFrom_no_crash g stack orig st startIndex w h
  · have hlen : 0 < stack.length := List.length_pos.2 hne
    obtain ⟨x, hx⟩ := index_isSome stack 0 (le_refl 0) (by exact_mod_cast hlen)
    cases hc : (g w.log (GitCmd.checkout x)).isSome with
    | false => simp [h, hx, runGitCommand, hc]
    | true =>
      cases pull with
      | false =>
        simp only [h, if_true, hx, runGitCommand, hc, Bool.false_eq_true, if_false]
        exact rebaseFrom_no_crash g stack orig st 1 _ (le_refl 1)
      | true =>
        cases hp : (g (w.log ++ [GitCmd.checkout x]) GitCmd.pull).isSome with
        | false => simp [h, hx, runGitCommand, hc, hp]
        | true =>
          simp only [h, if_true, hx, runGitCommand, hc, hp]
          exact rebaseFrom_no_crash g stack orig st 1 _ (le_refl 1)

/-- Outside the cases of C10 the loop panics at once, before any git command: when
`startIndex` is negative (the read of `stack[i]`), and when it is 0 on an empty stack (the
read of `stack[0]`). -/
theorem executeRebaseLoop_crash_iff (g : Git) (stack : List Str) (orig : Str)
    (startIndex : Int) (pull st : Bool) (w : World) :
    (executeRebaseLoop g stack orig startIndex pull st w).1 = .crash ↔
      (startIndex < 0 ∨ (startIndex = 0 ∧ stack = [])) := by
  constructor
  · intro hc
    by_contra hn
    refine executeRebaseLoop_no_crash g stack orig startIndex pull st w ?_ hc
    by_cases h0 : startIndex = 0
    · right
      exact ⟨h0, fun hs => hn (Or.inr ⟨h0, hs⟩)⟩
    · left
      have : ¬ startIndex < 0 := fun h => hn (Or.inl h)
      omega
  · rintro (hneg | ⟨h0, hs⟩)
    · have hne : ¬ startIndex = 0 := by omega
      obtain ⟨r, hr⟩ : ∃ r, ((stack.length : Int) - startIndex).toNat = r + 1 :=
        ⟨((stack.length : Int) - startIndex).toNat - 1, by omega⟩
      have hi : index stack startIndex = none := by
        have : ¬ 0 ≤ startIndex := by omega
        simp [index, this]
      simp [executeRebaseLoop, hne, rebaseFrom, hr, rebaseSteps, hi]
    · subst h0
      subst hs
      simp [executeRebaseLoop, index]

theorem returnToOriginal_no_crash (g : Git) (orig : Str) (st : Bool) (r : Outcome × World)
    (h : r.1 ≠ .crash) : (returnToOriginal g orig st r).1 ≠ .crash := by
  obtain ⟨o, w⟩ := r
  cases o with
  | crash => exact absurd rfl h
  | error e => simp [returnToOriginal]
  | ok =>
    cases hc : (g w.log (GitCmd.checkout orig)).isSome with
    | false => simp [returnToOriginal, runGitCommand, hc]
    | true =>
      cases st with
      | false => simp [returnToOriginal, runGitCommand, hc]
      | true =>
        cases hp : (g (w.log ++ [GitCmd.checkout orig]) GitCmd.stashPop).isSome <;>
          simp [returnToOriginal, runGitCommand, stashPop, hc, hp]

theorem rebaseStart_no_crash (g : Git) (shouldStash shouldPull : Bool) (w : World) :
    (rebaseStart g shouldStash shouldPull w).1 ≠ .crash := by
  unfold rebaseStart
  cases hg : getRebaseStateFilePath w with
  | error e => simp
  | ok u =>
    rcases hs : autoStash g shouldStash { w with stateFile := none } with ⟨r, w1⟩
    cases r with
    | error e => simp [hs]
    | ok didStash =>
      rcases hb : getCurrentBranch g w1 with ⟨r2, w2⟩
      cases r2 with
      | error e => simp [hs, hb]
      | ok originalBranch =>
        cases hr : readStack w2 with
        | error e => simp [hs, hb, hr]
        | ok lines =>
          by_cases hlen : lines.length < 2
          · simp [hs, hb, hr, hlen]
          · simp only [hs, hb, hr, hlen, if_false]
            apply returnToOriginal_no_crash
            apply executeRebaseLoop_no_crash
            right
            refine ⟨rfl, ?_⟩
            intro hnil
            rw [hnil] at hlen
            simp at hlen

/-- C10. `executeRebaseLoop` reads `stack[i]` and `stack[i-1]` in range (it does not
panic) for every stack and every `startIndex ≥ 1`, and for `startIndex = 0` on a stack
that is not empty.  Hence `Start` never reads out of range, and neither does `Resume` from
a checkpoint whose index is one that the loop writes (`i - 1` for an index `i ≥ 1` of a
slice, so at least 0 and below the largest `int`), whatever the stack file holds. -/
theorem rebase_loop_index_safe (g : Git) (stack : List Str) (originalBranch : Str)
    (startIndex : Int) (shouldPull didStash : Bool) (w : World)
    (h : 1 ≤ startIndex ∨ (startIndex = 0 ∧ stack ≠ [])) :
    (executeRebaseLoop g stack originalBranch startIndex shouldPull didStash w).1 ≠ .crash ∧
    (∀ shouldStash : Bool, (rebaseCmd g shouldStash shouldPull false w).1 ≠ .crash) ∧
    (∀ (content orig : Str) (last : Int) (st : Bool), w.stateFile = some content →
      parseCheckpoint content = some (orig, last, st) → 0 ≤ last → last < 2 ^ 63 - 1 →
      (rebaseCmd g false shouldPull true w).1 ≠ .crash) := by
  refine ⟨executeRebaseLoop_no_crash g stack originalBranch startIndex shouldPull didStash w h,
    ?_, ?_⟩
  · intro shouldStash
    simp only [rebaseCmd, Bool.false_eq_true, if_false]
    exact rebaseStart_no_crash g shouldStash shouldPull w
  · intro content orig last st hstate hload h0 hmax
    have hw : wrapInt (last + 1) = last + 1 :=
      wrapInt_of_lt _ (by norm_num; omega) (by norm_num at hmax ⊢; omega)
    simp only [rebaseCmd, if_true, cmdRebaseContinue]
    cases hrs : readStateFile w with
    | error e => simp
    | ok file =>
      have hfile : file = some content := by
        unfold readStateFile at hrs
        cases hg : getRebaseStateFilePath w with
        | error e => simp [hg] at hrs
        | ok u =>
          by_cases hf : w.stateReadFails = true
          · simp [hg, hf] at hrs
          · simp only [hg, hf, Bool.false_eq_true, if_false, Except.ok.injEq] at hrs
            rw [← hrs, hstate]
      subst hfile
      simp only [hload]
      cases hr : readStack w with
      | error e => simp
      | ok lines =>
        simp only [hw]
        apply returnToOriginal_no_crash
        apply executeRebaseLoop_no_crash
        left
        omega

/-- C10 on the stack `a, b, c`: the loop entered at step 1 and at the base step reads
`stack[i]` and `stack[i-1]` for every step and ends without a panic, and so does `Resume`
from the checkpoint `{work, 1, false}`, which reads `stack[2]` and `stack[1]`. -/
theorem rebase_loop_index_safe_witness :
    ((executeRebaseLoop (gitAlways [] []) ["a".toList, "b".toList, "c".toList] "work".toList 1
        false false ⟨some "a\nb\nc\n".toList, some "work\n1\nfalse".toList, [], true, false, false⟩).1 ≠ .crash ∧
      executeRebaseLoop (gitAlways [] []) ["a".toList, "b".toList, "c".toList] "work".toList 1
        false false ⟨some "a\nb\nc\n".toList, some "work\n1\nfalse".toList, [], true, false, false⟩ =
        (.ok, ⟨some "a\nb\nc\n".toList, none, [.checkout "b".toList, .rebase "a".toList, .checkout "c".toList,
            .rebase "b".toList], true, false, false⟩)) ∧
    ((executeRebaseLoop (gitAlways [] []) ["a".toList, "b".toList, "c".toList] "work".toList 0
        false false ⟨some "a\nb\nc\n".toList, some "work\n1\nfalse".toList, [], true, false, false⟩).1 ≠ .crash ∧
      executeRebaseLoop (gitAlways [] []) ["a".toList, "b".toList, "c".toList] "work".toList 0
        false false ⟨some "a\nb\nc\n".toList, some "work\n1\nfalse".toList, [], true, false, false⟩ =
        (.ok, ⟨some "a\nb\nc\n".toList, none, [.checkout "a".toList, .checkout "b".toList, .rebase "a".toList,
            .checkout "c".toList, .rebase "b".toList], true, false, false⟩)) ∧
    ((rebaseCmd (gitAlways [] []) false false true
        ⟨some "a\nb\nc\n".toList, some "work\n1\nfalse".toList, [], true, false, false⟩).1 ≠ .crash ∧
      rebaseCmd (gitAlways [] []) false false true
        ⟨some "a\nb\nc\n".toList, some "work\n1\nfalse".toList, [], true, false, false⟩ =
        (.ok, ⟨some "a\nb\nc\n".toList, none, [.checkout "c".toList, .rebase "b".toList, .checkout "work".toList], true, false, false⟩)) :=
  ⟨⟨(rebase_loop_index_safe (gitAlways [] []) ["a".toList, "b".toList, "c".toList]
      "work".toList 1 false false
      ⟨some "a\nb\nc\n".toList, some "work\n1\nfalse".toList, [], true, false, false⟩ (Or.inl (by decide))).1,
      by decide⟩,
    ⟨(rebase_loop_index_safe (gitAlways [] []) ["a".toList, "b".toList, "c".toList]
      "work".toList 0 false false
      ⟨some "a\nb\nc\n".toList, some "work\n1\nfalse".toList, [], true, false, false⟩
      (Or.inr ⟨rfl, by decide⟩)).1, by decide⟩,
    ⟨(rebase_loop_index_safe (gitAlways [] []) ["a".toList, "b".toList, "c".toList]
      "work".toList 1 false false
      ⟨some "a\nb\nc\n".toList, some "work\n1\nfalse".toList, [], true, false, false⟩
      (Or.inl (by decide))).2.2
      "work\n1\nfalse".toList "work".toList 1 false rfl (by decide) (by decide) (by decide),
      by decide⟩⟩

/-! ## The errors of `Resume` -/

theorem parseCheckpoint_eq (content : Str) :
    parseCheckpoint content =
      if (splitNewline (trimSpace content)).length = 3 then
        some ((splitNewline (trimSpace content)).getD 0 [],
          atoi ((splitNewline (trimSpace content)).getD 1 []),
          parseBool ((splitNewline (trimSpace content)).getD 2 []))
      else none := by
  unfold parseCheckpoint
  rcases splitNewline (trimSpace content) with _ | ⟨a, _ | ⟨b, _ | ⟨c, _ | ⟨d, l⟩⟩⟩⟩ <;> simp

@[simp] theorem writeStateFile_log (w : World) (text : Str) :
    (writeStateFile w text).log = w.log := by
  unfold writeStateFile
  split <;> rfl

@[simp] theorem removeStateFile_log (w : World) : (removeStateFile w).log = w.log := by
  unfold removeStateFile
  split <;> rfl

theorem rebaseSteps_commandErrorsOnly (g : Git) (stack : List Str) (orig : Str) (st : Bool) :
    ∀ (r : Nat) (i : Int) (w : World),
      CommandErrorsOnly w (rebaseSteps g stack orig st r i w) := by
  intro r
  induction r with
  | zero => intro i w; simp [rebaseSteps, CommandErrorsOnly]
  | succ r ih =>
    intro i w
    cases hx : index stack i with
    | none => simp [rebaseSteps, hx, CommandErrorsOnly]
    | some x =>
      cases hy : index stack (i - 1) with
      | none => simp [rebaseSteps, hx, hy, CommandErrorsOnly]
      | some y =>
        cases hc : (g w.log (GitCmd.checkout x)).isSome with
        | false => simp [rebaseSteps, hx, hy, runGitCommand, hc, CommandErrorsOnly]
        | true =>
          cases hr2 : (g (w.log ++ [GitCmd.checkout x]) (GitCmd.rebase y)).isSome with
          | false => simp [rebaseSteps, hx, hy, runGitCommand, hc, hr2, CommandErrorsOnly]
          | true =>
            have h := ih (i + 1)
              { w with log := w.log ++ [GitCmd.checkout x] ++ [GitCmd.rebase y] }
            simp only [rebaseSteps, hx, hy, runGitCommand, hc, hr2]
            unfold CommandErrorsOnly at h ⊢
            simp only [List.length_append, List.length_singleton] at h
            refine ⟨by omega, fun e he => ⟨(h.2 e he).1, ?_⟩⟩
            have := (h.2 e he).2
            omega

theorem commandErrorsOnly_of_le (w w1 : World) (r : Outcome × World)
    (hle : w.log.length ≤ w1.log.length) (h : CommandErrorsOnly w1 r) :
    CommandErrorsOnly w r := by
  unfold CommandErrorsOnly at h ⊢
  refine ⟨by omega, fun e he => ⟨(h.2 e he).1, ?_⟩⟩
  have := (h.2 e he).2
  omega

theorem rebaseFrom_commandErrorsOnly (g : Git) (stack : List Str) (orig : Str) (st : Bool)
    (i : Int) (w : World) : CommandErrorsOnly w (rebaseFrom g stack orig st i w) := by
  have h := rebaseSteps_commandErrorsOnly g stack orig st ((stack.length : Int) - i).toNat i w
  unfold rebaseFrom
  split
  · rename_i w1 heq
    rw [heq] at h
    exact ⟨by simpa using h.1, fun e he => by simp at he⟩
  · exact h

theorem executeRebaseLoop_commandErrorsOnly (g : Git) (stack : List Str) (orig : Str)
    (startIndex : Int) (pull st : Bool) (w : World) :
    CommandErrorsOnly w (executeRebaseLoop g stack orig startIndex pull st w) := by
  unfold executeRebaseLoop
  by_cases h0 : startIndex = 0
  · simp only [h0, if_true]
    cases hx : index stack 0 with
    | none => simp [CommandErrorsOnly]
    | some x =>
      cases hc : (g w.log (GitCmd.checkout x)).isSome with
      | false => simp [runGitCommand, hc, CommandErrorsOnly]
      | true =>
        cases pull with
        | false =>
          simp only [runGitCommand, hc, Bool.false_eq_true, if_false]
          exact commandErrorsOnly_of_le _ _ _ (by simp) (rebaseFrom_commandErrorsOnly _ _ _ _ _ _)
        | true =>
          cases hp : (g (w.log ++ [GitCmd.checkout x]) GitCmd.pull).isSome with
          | false => simp [runGitCommand, hc, hp, CommandErrorsOnly]
          | true =>
            simp only [runGitCommand, hc, hp, if_true]
            exact commandErrorsOnly_of_le _ _ _ (by simp)
              (rebaseFrom_commandErrorsOnly _ _ _ _ _ _)
  · simp only [h0, if_false]
    exact rebaseFrom_commandErrorsOnly _ _ _ _ _ _

theorem returnToOriginal_commandErrorsOnly (g : Git) (orig : Str) (st : Bool) (w : World)
    (r : Outcome × World) (h : CommandErrorsOnly w r) :
    CommandErrorsOnly w (returnToOriginal g orig st r) := by
  obtain ⟨o, w1⟩ := r
  cases o with
  | crash => exact h
  | error e => exact h
  | ok =>
    have hle : w.log.length ≤ w1.log.length := h.1
    cases hc : (g w1.log (GitCmd.checkout orig)).isSome with
    | false =>
      simp only [returnToOriginal, runGitCommand, hc, CommandErrorsOnly, List.length_append,
        List.length_singleton]
      exact ⟨by omega, fun e he => ⟨⟨_, (Outcome.error.inj he).symm⟩, by omega⟩⟩
    | true =>
      cases st with
      | false =>
        simp only [returnToOriginal, runGitCommand, hc, CommandErrorsOnly, List.length_append,
          List.length_singleton, Bool.false_eq_true, if_false]
        exact ⟨by omega, fun e he => by simp at he⟩
      | true =>
        cases hp : (g (w1.log ++ [GitCmd.checkout orig]) GitCmd.stashPop).isSome with
        | false =>
          simp only [returnToOriginal, runGitCommand, hc, hp, stashPop, CommandErrorsOnly,
            List.length_append, List.length_singleton, if_true]
          exact ⟨by omega, fun e he => ⟨⟨_, (Outcome.error.inj he).symm⟩, by omega⟩⟩
        | true =>
          simp only [returnToOriginal, runGitCommand, hc, hp, stashPop, CommandErrorsOnly,
            List.length_append, List.length_singleton, if_true]
          exact ⟨by omega, fun e he => by simp at he⟩

theorem readStateFile_error (w : World) (e : Err) (h : readStateFile w = .error e) :
    (e = .notAGitRepository ∧ w.inRepo = false) ∨
      (e = .readStateFile ∧ w.inRepo = true ∧ w.stateReadFails = true) := by
  unfold readStateFile getRebaseStateFilePath getGitDir at h
  cases hir : w.inRepo with
  | false =>
    simp only [hir, Bool.false_eq_true, if_false, Except.error.injEq] at h
    exact Or.inl ⟨h.symm, rfl⟩
  | true =>
    cases hf : w.stateReadFails with
    | false => simp [hir, hf] at h
    | true =>
      simp only [hir, hf, if_true, Except.error.injEq] at h
      exact Or.inr ⟨h.symm, rfl, rfl⟩

theorem readStateFile_ok (w : World) (file : Option Str) (h : readStateFile w = .ok file) :
    w.inRepo = true ∧ w.stateReadFails = false ∧ w.stateFile = file := by
  unfold readStateFile getRebaseStateFilePath getGitDir at h
  cases hir : w.inRepo with
  | false => simp [hir] at h
  | true =>
    cases hf : w.stateReadFails with
    | true => simp [hir, hf] at h
    | false =>
      simp only [hir, hf, if_true, Bool.false_eq_true, if_false, Except.ok.injEq] at h
      exact ⟨rfl, rfl, h⟩

theorem readStack_error (w : World) (e : Err) (hir : w.inRepo = true)
    (h : readStack w = .error e) : e = .openStackFile ∨ e = .tokenTooLong := by
  unfold readStack getStackFilePath getGitDir readLines at h
  simp only [hir, if_true] at h
  cases ho : w.stackOpenFails with
  | true =>
    simp only [ho, if_true, Except.error.injEq] at h
    exact Or.inl h.symm
  | false =>
    simp only [ho, Bool.false_eq_true, if_false] at h
    cases hs : w.stackFile with
    | none => simp [hs] at h
    | some content =>
      simp only [hs] at h
      split at h
      · exact Or.inr (Except.error.inj h).symm
      · cases h

/-- C9, as amended. `Resume` returns an error before any git command in exactly these
cases, and then changes nothing: outside a git repository ("not a git repository"); when
the rebase state file cannot be read for another reason than its absence (the error of
`os.ReadFile`); with "no rebase in progress" when there is no rebase state file; with
"invalid rebase state file" when the trimmed content of the file does not split on
newlines into exactly three fields; and, with three fields, when the stack file cannot be
read (the error of `os.Open`, or of the scanner on a line of 64 KiB or more).  Each of
these errors is returned in its case only, and an error that comes out of the rebase loop
is the error of a git command that was issued. -/
theorem resume_load_errors (g : Git) (w : World) :
    ((cmdRebaseContinue g w).1 = .error .notAGitRepository ↔ w.inRepo = false) ∧
    ((cmdRebaseContinue g w).1 = .error .readStateFile ↔
      (w.inRepo = true ∧ w.stateReadFails = true)) ∧
    ((cmdRebaseContinue g w).1 = .error .noRebaseInProgress ↔ readStateFile w = .ok none) ∧
    ((cmdRebaseContinue g w).1 = .error .invalidStateFile ↔
      ∃ content, readStateFile w = .ok (some content) ∧
        (splitNewline (trimSpace content)).length ≠ 3) ∧
    ((cmdRebaseContinue g w).1 = .error .openStackFile ↔
      ∃ content, readStateFile w = .ok (some content) ∧
        (splitNewline (trimSpace content)).length = 3 ∧ readStack w = .error .openStackFile) ∧
    ((cmdRebaseContinue g w).1 = .error .tokenTooLong ↔
      ∃ content, readStateFile w = .ok (some content) ∧
        (splitNewline (trimSpace content)).length = 3 ∧ readStack w = .error .tokenTooLong) ∧
    (((∃ e, (cmdRebaseContinue g w).1 = .error e) ∧ (cmdRebaseContinue g w).2.log = w.log) ↔
      ((∃ e, readStateFile w = .error e) ∨ readStateFile w = .ok none ∨
        ∃ content, readStateFile w = .ok (some content) ∧
          ((splitNewline (trimSpace content)).length ≠ 3 ∨ ∃ e, readStack w = .error e))) ∧
    (((∃ e, (cmdRebaseContinue g w).1 = .error e) ∧ (cmdRebaseContinue g w).2.log = w.log) ↔
      ((∃ e, (cmdRebaseContinue g w).1 = .error e) ∧ (cmdRebaseContinue g w).2 = w)) := by
  cases hrs : readStateFile w with
  | error e =>
    have hR : cmdRebaseContinue g w = (.error e, w) := by
      simp only [cmdRebaseContinue, hrs]
    rcases readStateFile_error w e hrs with ⟨rfl, hir⟩ | ⟨rfl, hir, hf⟩
    · simp [hR, hir]
    · simp [hR, hir, hf]
  | ok file =>
    obtain ⟨hir, hf, hfile⟩ := readStateFile_ok w file hrs
    cases file with
    | none =>
      have hR : cmdRebaseContinue g w = (.error .noRebaseInProgress, w) := by
        simp only [cmdRebaseContinue, hrs]
      simp [hR, hir, hf]
    | some content =>
      have hpc := parseCheckpoint_eq content
      by_cases h3 : (splitNewline (trimSpace content)).length = 3
      · simp only [h3, if_true] at hpc
        cases hr : readStack w with
        | error e =>
          have hR : cmdRebaseContinue g w = (.error e, w) := by
            simp only [cmdRebaseContinue, hrs, hpc, hr]
          rcases readStack_error w e hir hr with rfl | rfl
          · simp [hR, hir, hf, h3]
          · simp [hR, hir, hf, h3]
        | ok lines =>
          have hR : cmdRebaseContinue g w =
              returnToOriginal g ((splitNewline (trimSpace content)).getD 0 [])
                (parseBool ((splitNewline (trimSpace content)).getD 2 []))
                (executeRebaseLoop g lines ((splitNewline (trimSpace content)).getD 0 [])
                  (wrapInt (atoi ((splitNewline (trimSpace content)).getD 1 []) + 1)) false
                  (parseBool ((splitNewline (trimSpace content)).getD 2 [])) w) := by
            simp only [cmdRebaseContinue, hrs, hpc, hr]
          have hce := returnToOriginal_commandErrorsOnly g
            ((splitNewline (trimSpace content)).getD 0 [])
            (parseBool ((splitNewline (trimSpace content)).getD 2 [])) w _
            (executeRebaseLoop_commandErrorsOnly g lines
              ((splitNewline (trimSpace content)).getD 0 [])
              (wrapInt (atoi ((splitNewline (trimSpace content)).getD 1 []) + 1)) false
              (parseBool ((splitNewline (trimSpace content)).getD 2 [])) w)
          rw [← hR] at hce
          have hcmd : ∀ e, (cmdRebaseContinue g w).1 = .error e →
              (∃ c, e = Err.command c) ∧ w.log.length < (cmdRebaseContinue g w).2.log.length :=
            hce.2
          have hno : ∀ e, (∀ c, e ≠ Err.command c) → (cmdRebaseContinue g w).1 ≠ .error e := by
            intro e hne he
            obtain ⟨⟨c, hc⟩, -⟩ := hcmd e he
            exact hne c hc
          have hlog : ¬ ((∃ e, (cmdRebaseContinue g w).1 = .error e) ∧
              (cmdRebaseContinue g w).2.log = w.log) := by
            rintro ⟨⟨e, he⟩, hl⟩
            have := (hcmd e he).2
            rw [hl] at this
            omega
          have hw : ¬ ((∃ e, (cmdRebaseContinue g w).1 = .error e) ∧
              (cmdRebaseContinue g w).2 = w) := by
            rintro ⟨he, hl⟩
            exact hlog ⟨he, by rw [hl]⟩
          refine ⟨?_, ?_, ?_, ?_, ?_, ?_, ?_, ?_⟩
          · simp [hno .notAGitRepository (fun c h => by cases h), hir]
          · simp [hno .readStateFile (fun c h => by cases h), hf]
          · simp [hno .noRebaseInProgress (fun c h => by cases h)]
          · simp [hno .invalidStateFile (fun c h => by cases h), h3]
          · simp [hno .openStackFile (fun c h => by cases h), hr]
          · simp [hno .tokenTooLong (fun c h => by cases h), hr]
          · simp [hlog, h3, hr]
          · simp [hlog, hw]
      · simp only [h3, if_false] at hpc
        have hR : cmdRebaseContinue g w = (.error .invalidStateFile, w) := by
          simp only [cmdRebaseContinue, hrs, hpc]
        simp [hR, hir, hf, h3]

/-- C9 as stated fails: with the three-field checkpoint `work, -5, false` and the stack
`a, b`, `Resume` passes the load and panics in the loop before any git command; and when
the rebase state file cannot be read, or outside a git repository, it returns the error of
the read before any git command.  None of these is one of the two cases of the claim. -/
theorem resume_zero_command_failures_counterexample :
    cmdRebaseContinue (gitAlways [] [])
        ⟨some "a\nb\n".toList, some "work\n-5\nfalse".toList, [], true, false, false⟩ =
      (.crash, ⟨some "a\nb\n".toList, some "work\n-5\nfalse".toList, [], true, false, false⟩) ∧
    (splitNewline (trimSpace "work\n-5\nfalse".toList)).length = 3 ∧
    cmdRebaseContinue (gitAlways [] [])
        ⟨some "a\nb\n".toList, some "work\n0\nfalse".toList, [], true, false, true⟩ =
      (.error .readStateFile,
        ⟨some "a\nb\n".toList, some "work\n0\nfalse".toList, [], true, false, true⟩) ∧
    cmdRebaseContinue (gitAlways [] []) ⟨none, none, [], false, false, false⟩ =
      (.error .notAGitRepository, ⟨none, none, [], false, false, false⟩) := by
  decide

/-! ## The text of the checkpoint -/

theorem digitChar_spec : ∀ d, d < 10 →
    (('0' ≤ digitChar d ∧ digitChar d ≤ '9') ∧ (digitChar d).toNat - 48 = d) ∧
      digitChar d ≠ '\n' ∧ digitChar d ≠ '-' ∧ digitChar d ≠ '+' ∧
      isSpace (digitChar d) = false := by
  decide

theorem decimalDigits_lt : ∀ (fuel n : Nat), ∀ d ∈ decimalDigits fuel n, d < 10 := by
  intro fuel
  induction fuel with
  | zero => intro n d hd; simp [decimalDigits] at hd
  | succ fuel ih =>
    intro n d hd
    unfold decimalDigits at hd
    split at hd
    · simp only [List.mem_singleton] at hd; omega
    · rcases List.mem_cons.1 hd with h | h
      · omega
      · exact ih _ d h

theorem decimalDigits_value : ∀ (fuel n : Nat), n < fuel →
    (decimalDigits fuel n).foldr (fun d a => a * 10 + d) 0 = n := by
  intro fuel
  induction fuel with
  | zero => intro n h; omega
  | succ fuel ih =>
    intro n h
    unfold decimalDigits
    split
    · simp
    · rw [List.foldr_cons, ih (n / 10) (by omega)]
      omega

theorem decimalDigits_ne_nil (fuel n : Nat) : decimalDigits (fuel + 1) n ≠ [] := by
  unfold decimalDigits
  split <;> simp

theorem foldl_digits_le (ms : List Nat) :
    ∀ acc, acc ≤ ms.foldl (fun a d => a * 10 + d) acc := by
  induction ms with
  | nil => intro acc; exact le_refl _
  | cons d ms ih =>
    intro acc
    rw [List.foldl_cons]
    exact le_trans (by omega) (ih (acc * 10 + d))

theorem parseDigits_map (ms : List Nat) :
    ∀ acc, (∀ d ∈ ms, d < 10) → ms.foldl (fun a d => a * 10 + d) acc < 2 ^ 64 →
      parseDigits acc (ms.map digitChar) = some (ms.foldl (fun a d => a * 10 + d) acc) := by
  induction ms with
  | nil => intro acc _ _; rfl
  | cons d ms ih =>
    intro acc hd hlt
    have hdig := (digitChar_spec d (hd d (List.mem_cons_self _ _))).1
    rw [List.foldl_cons] at hlt ⊢
    have hle := foldl_digits_le ms (acc * 10 + d)
    have hn : ¬ 2 ^ 64 ≤ acc * 10 + d := by omega
    simp only [List.map_cons, parseDigits, hdig.1, and_self, if_true, hdig.2, hn, if_false]
    exact ih _ (fun x hx => hd x (List.mem_cons_of_mem _ hx)) hlt

theorem formatNat_eq (n : Nat) :
    formatNat n = ((decimalDigits (n + 1) n).reverse).map digitChar := by
  simp [formatNat, List.map_reverse]

theorem parseDigits_formatNat (n : Nat) (h : n < 2 ^ 64) :
    parseDigits 0 (formatNat n) = some n := by
  have hv : (decimalDigits (n + 1) n).reverse.foldl (fun a d => a * 10 + d) 0 = n := by
    rw [List.foldl_reverse]
    exact decimalDigits_value (n + 1) n (by omega)
  rw [formatNat_eq, parseDigits_map _ 0
    (fun d hd => decimalDigits_lt (n + 1) n d (List.mem_reverse.1 hd)) (by rw [hv]; exact h), hv]

theorem formatNat_chars (n : Nat) : ∀ c ∈ formatNat n, ∃ d, d < 10 ∧ c = digitChar d := by
  intro c hc
  rw [formatNat_eq] at hc
  obtain ⟨d, hd, rfl⟩ := List.mem_map.1 hc
  exact ⟨d, decimalDigits_lt (n + 1) n d (List.mem_reverse.1 hd), rfl⟩

theorem formatNat_cons (n : Nat) : ∃ d rest, d < 10 ∧ formatNat n = digitChar d :: rest := by
  have hne : formatNat n ≠ [] := by
    rw [formatNat_eq]
    simp [decimalDigits_ne_nil]
  cases hf : formatNat n with
  | nil => exact absurd hf hne
  | cons c rest =>
    obtain ⟨d, hd, rfl⟩ := formatNat_chars n c (by rw [hf]; exact List.mem_cons_self _ _)
    exact ⟨d, rest, hd, rfl⟩

/-- `Atoi` reads back what `%d` prints, for every value of the 64-bit `int`. -/
theorem atoi_formatInt (k : Int) (h0 : -2 ^ 63 ≤ k) (h1 : k < 2 ^ 63) :
    atoi (formatInt k) = k := by
  obtain ⟨d, rest, hd, hf⟩ := formatNat_cons k.natAbs
  have hspec := (digitChar_spec d hd).2
  have habs : k.natAbs < 2 ^ 64 := by norm_num at h0 h1 ⊢; omega
  have hp := parseDigits_formatNat k.natAbs habs
  by_cases hk : k < 0
  · have hb : ¬ (2 ^ 63 < k.natAbs) := by norm_num at h0 h1 ⊢; omega
    have hne : formatNat k.natAbs ≠ [] := by rw [hf]; simp
    simp only [atoi, formatInt, hk, if_true, List.head?_cons, List.tail_cons, true_or, hne,
      if_false, hp, hb]
    omega
  · have hb : ¬ (2 ^ 63 ≤ k.natAbs) := by norm_num at h0 h1 ⊢; omega
    have hm : ¬ (digitChar d = '-') := hspec.2.1
    have hpl : ¬ (digitChar d = '+') := hspec.2.2.1
    have hp2 : parseDigits 0 (digitChar d :: rest) = some k.natAbs := by rw [← hf]; exact hp
    simp only [atoi, formatInt, hk, if_false, hf, List.head?_cons, Option.some.injEq, hm, hpl,
      or_self, hp2, hb]
    simp
    omega

theorem splitNewline_of_not_mem (a : Str) (h : '\n' ∉ a) : splitNewline a = [a] := by
  induction a with
  | nil => rfl
  | cons c cs ih =>
    have hc : c ≠ '\n' := fun e => h (by simp [e])
    have hcs : '\n' ∉ cs := fun hm => h (List.mem_cons_of_mem _ hm)
    simp only [splitNewline, hc, if_false, ih hcs]

theorem splitNewline_append (a rest : Str) (h : '\n' ∉ a) :
    splitNewline (a ++ '\n' :: rest) = a :: splitNewline rest := by
  induction a with
  | nil => simp [splitNewline]
  | cons c cs ih =>
    have hc : c ≠ '\n' := fun e => h (by simp [e])
    have hcs : '\n' ∉ cs := fun hm => h (List.mem_cons_of_mem _ hm)
    simp only [List.cons_append, splitNewline, hc, if_false, List.append_eq, ih hcs]

theorem trimSpace_eq_self (a z : Char) (mid : Str) (ha : isSpace a = false)
    (hz : isSpace z = false) : trimSpace (a :: (mid ++ [z])) = a :: (mid ++ [z]) := by
  have h1 : (a :: (mid ++ [z])).dropWhile isSpace = a :: (mid ++ [z]) := by
    simp [List.dropWhile, ha]
  have h2 : (a :: (mid ++ [z])).reverse = z :: (a :: mid).reverse := by simp
  have h3 : (z :: (a :: mid).reverse).dropWhile isSpace = z :: (a :: mid).reverse := by
    simp [List.dropWhile, hz]
  unfold trimSpace
  rw [h1, h2, h3, ← h2, List.reverse_reverse]

theorem formatInt_no_newline (k : Int) : '\n' ∉ formatInt k := by
  have hn : '\n' ∉ formatNat k.natAbs := by
    intro hm
    obtain ⟨d, hd, he⟩ := formatNat_chars _ _ hm
    exact (digitChar_spec d hd).2.1 he.symm
  unfold formatInt
  split
  · intro hm
    rcases List.mem_cons.1 hm with h | h
    · exact absurd h (by decide)
    · exact hn h
  · exact hn

theorem formatBool_spec (b : Bool) :
    '\n' ∉ formatBool b ∧ parseBool (formatBool b) = b ∧
      ∃ init, formatBool b = init ++ ['e'] := by
  cases b
  · exact ⟨by decide, by decide, "fals".toList, rfl⟩
  · exact ⟨by decide, by decide, "tru".toList, rfl⟩

/-- C7. The text that the rebase loop writes for `{b, k, s}` is read back by `Resume` as
the original branch `b`, the index `k` and the stash flag `s`, without a corruption error,
for every branch name `b` that is not empty, holds no newline and does not start with
white space (white space at its end does no harm: the text goes on after it), every `k` of
the 64-bit `int` and every `s`. -/
theorem checkpoint_round_trip (b : Str) (k : Int) (s : Bool)
    (hne : b ≠ []) (hnl : '\n' ∉ b) (hhead : ∀ c ∈ b.head?, isSpace c = false)
    (hmin : -2 ^ 63 ≤ k) (hmax : k < 2 ^ 63) :
    parseCheckpoint (checkpointText b k s) = some (b, k, s) := by
  obtain ⟨hbn, hbp, init, hinit⟩ := formatBool_spec s
  have hsplit : splitNewline (checkpointText b k s) = [b, formatInt k, formatBool s] := by
    have e : checkpointText b k s = b ++ '\n' :: (formatInt k ++ '\n' :: formatBool s) := by
      simp [checkpointText]
    rw [e, splitNewline_append _ _ hnl, splitNewline_append _ _ (formatInt_no_newline k),
      splitNewline_of_not_mem _ hbn]
  cases b with
  | nil => exact absurd rfl hne
  | cons a t =>
    have ha : isSpace a = false := hhead a (by simp)
    have htrim : trimSpace (checkpointText (a :: t) k s) = checkpointText (a :: t) k s := by
      have e : checkpointText (a :: t) k s =
          a :: ((t ++ '\n' :: formatInt k ++ '\n' :: init) ++ ['e']) := by
        simp [checkpointText, hinit]
      rw [e]
      exact trimSpace_eq_self a 'e' _ ha (by decide)
    simp only [parseCheckpoint, htrim, hsplit, atoi_formatInt k hmin hmax, hbp]

/-- C7 at the branch `work`, the index 1 and a stash made. -/
theorem checkpoint_round_trip_witness :
    parseCheckpoint (checkpointText "work".toList 1 true) = some ("work".toList, 1, true) :=
  checkpoint_round_trip "work".toList 1 true (by decide) (by decide) (by decide) (by decide)
    (by decide)

/-! ## The stack file: push and pop -/

theorem scanLines_append_newline (c : Str) :
    ∀ (cur d : Str),
      scanLines cur (c ++ '\n' :: d) = scanLines cur (c ++ ['\n']) ++ scanLines [] d := by
  induction c with
  | nil => intro cur d; simp [scanLines]
  | cons x c ih =>
    intro cur d
    by_cases hx : x = '\n'
    · simp only [List.cons_append, scanLines, hx, if_true, List.cons_append, List.append_eq,
        ih [] d]
    · simp only [List.cons_append, scanLines, hx, if_false, List.append_eq, ih (x :: cur) d]

theorem scanLines_line (p : Str) :
    ∀ cur : Str, '\n' ∉ p → scanLines cur (p ++ ['\n']) = [dropCR (cur.reverse ++ p)] := by
  induction p with
  | nil => intro cur _; simp [scanLines]
  | cons x p ih =>
    intro cur h
    have hx : x ≠ '\n' := fun e => h (by simp [e])
    have hp : '\n' ∉ p := fun hm => h (List.mem_cons_of_mem _ hm)
    simp only [List.cons_append, scanLines, hx, if_false, List.append_eq, ih (x :: cur) hp,
      List.reverse_cons, List.append_assoc, List.singleton_append, List.nil_append]

theorem dropCR_of_not_mem (p : Str) (h : '\r' ∉ p) : dropCR p = p := by
  unfold dropCR
  split
  · rename_i r heq
    exact absurd (List.mem_reverse.1 (by rw [heq]; exact List.mem_cons_self _ _)) h
  · rfl

theorem dropCR_subset (p : Str) : ∀ c ∈ dropCR p, c ∈ p := by
  intro c hc
  unfold dropCR at hc
  split at hc
  · rename_i r heq
    exact List.mem_reverse.1 (by rw [heq]; exact List.mem_cons_of_mem _ (List.mem_reverse.1 hc))
  · exact hc

theorem scanLines_no_newline (c : Str) :
    ∀ cur : Str, '\n' ∉ cur → ∀ x ∈ scanLines cur c, '\n' ∉ x := by
  induction c with
  | nil =>
    intro cur hcur x hx
    unfold scanLines at hx
    split at hx
    · simp at hx
    · rw [List.mem_singleton] at hx
      subst hx
      exact fun hm => hcur (List.mem_reverse.1 (dropCR_subset _ _ hm))
  | cons a c ih =>
    intro cur hcur x hx
    unfold scanLines at hx
    split at hx
    · rcases List.mem_cons.1 hx with h | h
      · subst h
        exact fun hm => hcur (List.mem_reverse.1 (dropCR_subset _ _ hm))
      · exact ih [] (by simp) x h
    · rename_i hne
      refine ih (a :: cur) ?_ x hx
      intro hm
      rcases List.mem_cons.1 hm with h | h
      · exact hne h.symm
      · exact hcur h

theorem fileLines_no_newline (file : Option Str) : ∀ x ∈ fileLines file, '\n' ∉ x := by
  cases file with
  | none => intro x hx; simp [fileLines] at hx
  | some c => exact scanLines_no_newline c [] (by simp)

/-- A file written by the program ends with a newline. -/
theorem writtenByProgram_ends (file : Option Str) (h : WrittenByProgram file) :
    ∀ c, file = some c → ∃ init, c = init ++ ['\n'] := by
  induction h with
  | absent => intro c hc; cases hc
  | push file branch _ _ =>
    intro c hc
    cases file with
    | none =>
      simp only [pushBranch, Option.some.injEq] at hc
      exact ⟨branch, hc.symm⟩
    | some c0 =>
      simp only [pushBranch, Option.some.injEq] at hc
      exact ⟨c0 ++ branch, hc.symm⟩
  | pop file branch rest _ hpop _ =>
    intro c hc
    by_cases h0 : (fileLines file).length = 0
    · simp [popBranch, h0] at hpop
    · simp only [popBranch, h0, if_false, Option.some.injEq, Prod.mk.injEq] at hpop
      rw [← hpop.2, Option.some.injEq] at hc
      exact ⟨_, hc.symm⟩

/-- A push appends one line to the lines of the file. -/
theorem fileLines_pushBranch (file : Option Str) (p : Str)
    (hfile : ∀ c, file = some c → ∃ init, c = init ++ ['\n'])
    (hn : '\n' ∉ p) (hr : '\r' ∉ p) :
    fileLines (pushBranch file p) = fileLines file ++ [p] := by
  cases file with
  | none =>
    simp only [pushBranch, fileLines, scanLines_line p [] hn, List.reverse_nil, List.nil_append,
      dropCR_of_not_mem p hr]
  | some c =>
    obtain ⟨init, rfl⟩ := hfile c rfl
    have e : init ++ ['\n'] ++ p ++ ['\n'] = init ++ '\n' :: (p ++ ['\n']) := by simp
    simp only [pushBranch, fileLines, e, scanLines_append_newline init [] (p ++ ['\n']),
      scanLines_line p [] hn, List.reverse_nil, List.nil_append, dropCR_of_not_mem p hr]

theorem pushBranch_ends (file : Option Str) (p : Str) :
    ∀ c, pushBranch file p = some c → ∃ init, c = init ++ ['\n'] := by
  intro c hc
  cases file with
  | none =>
    simp only [pushBranch, Option.some.injEq] at hc
    exact ⟨p, hc.symm⟩
  | some c0 =>
    simp only [pushBranch, Option.some.injEq] at hc
    exact ⟨c0 ++ p, hc.symm⟩

theorem fileLines_pushAll (names : List Str) :
    ∀ file : Option Str, (∀ c, file = some c → ∃ init, c = init ++ ['\n']) →
      (∀ p ∈ names, '\n' ∉ p ∧ '\r' ∉ p) →
      fileLines (pushAll file names) = fileLines file ++ names := by
  induction names with
  | nil => intro file _ _; simp [pushAll]
  | cons p names ih =>
    intro file hfile hnames
    have hp := hnames p (List.mem_cons_self _ _)
    have := ih (pushBranch file p) (pushBranch_ends file p)
      (fun q hq => hnames q (List.mem_cons_of_mem _ hq))
    simp only [pushAll, List.foldl_cons] at this ⊢
    rw [this, fileLines_pushBranch file p hfile hp.1 hp.2, List.append_assoc,
      List.singleton_append]

/-- A pop returns the last line and rewrites the file with the lines before it. -/
theorem popBranch_of_lines (file : Option Str) (below : List Str) (top : Str)
    (h : fileLines file = below ++ [top]) :
    popBranch file = some (top, some (joinNewline below ++ ['\n'])) := by
  simp [popBranch, h]

/-- What `pop` writes for a stack that is not empty reads back line by line. -/
theorem scanLines_joinNewline (rest : List Str) :
    ∀ x : Str, (∀ y ∈ x :: rest, '\n' ∉ y) →
      scanLines [] (joinNewline (x :: rest) ++ ['\n']) = (x :: rest).map dropCR := by
  induction rest with
  | nil =>
    intro x h
    simp only [joinNewline, scanLines_line x [] (h x (List.mem_cons_self _ _)), List.reverse_nil,
      List.nil_append, List.map_cons, List.map_nil]
  | cons y rest ih =>
    intro x h
    have e : joinNewline (x :: y :: rest) ++ ['\n'] =
        x ++ '\n' :: (joinNewline (y :: rest) ++ ['\n']) := by
      simp [joinNewline]
    rw [e, scanLines_append_newline x [] _, scanLines_line x [] (h x (List.mem_cons_self _ _)),
      ih y (fun z hz => h z (List.mem_cons_of_mem _ hz))]
    simp

theorem popMany_of_lines (names : List Str) :
    ∀ (file : Option Str) (below : List Str), fileLines file = below ++ names →
      (∀ x ∈ below, '\n' ∉ x) → (∀ p ∈ names, '\n' ∉ p ∧ '\r' ∉ p) →
      popMany names.length file = names.reverse := by
  induction names using List.reverseRecOn with
  | nil => intro file below _ _ _; rfl
  | append_singleton init top ih =>
    intro file below hread hbelow hnames
    have hpop := popBranch_of_lines file (below ++ init) top
      (by rw [hread, List.append_assoc])
    simp only [List.length_append, List.length_singleton, popMany, hpop, List.reverse_append,
      List.reverse_singleton, List.singleton_append, List.cons.injEq, true_and]
    have hinit : ∀ p ∈ init, '\n' ∉ p ∧ '\r' ∉ p :=
      fun p hp => hnames p (List.mem_append_left _ hp)
    cases hcase : below ++ init with
    | nil =>
      have : init = [] := (List.append_eq_nil.1 hcase).2
      subst this
      rfl
    | cons x rest =>
      refine ih (some (joinNewline (x :: rest) ++ ['\n'])) (below.map dropCR) ?_ ?_ hinit
      · have hno : ∀ y ∈ x :: rest, '\n' ∉ y := by
          intro y hy
          rw [← hcase] at hy
          rcases List.mem_append.1 hy with h | h
          · exact hbelow y h
          · exact (hinit y h).1
        have hmap : init.map dropCR = init :=
          (List.map_congr_left (fun p hp => dropCR_of_not_mem p (hinit p hp).2)).trans
            (List.map_id init)
        simp only [fileLines, scanLines_joinNewline rest x hno]
        rw [← hcase, List.map_append, hmap]
      · intro y hy
        obtain ⟨z, hz, rfl⟩ := List.mem_map.1 hy
        exact fun hm => hbelow z hz (dropCR_subset z _ hm)

/-- The lines of a file without a line of 64 KiB or more are what `readLines` returns. -/
theorem readLines_eq_fileLines (file : Option Str)
    (h : ∀ content, file = some content → tokenTooLong [] content = false) :
    readLines false file = .ok (fileLines file) := by
  cases file with
  | none => rfl
  | some content => simp [readLines, fileLines, h content rfl]

/-- After a pop of a stack of two lines or more, none of which ends with a carriage
return, the lines of the file are the lines before without the last one. -/
theorem fileLines_after_pop (file : Option Str) (below : List Str) (top : Str)
    (h : fileLines file = below ++ [top]) (hne : below ≠ [])
    (hcr : ∀ x ∈ below, dropCR x = x) :
    ∃ rest, popBranch file = some (top, rest) ∧ fileLines rest = below := by
  refine ⟨_, popBranch_of_lines file below top h, ?_⟩
  cases below with
  | nil => exact absurd rfl hne
  | cons x rest =>
    have hno : ∀ y ∈ x :: rest, '\n' ∉ y := fun y hy =>
      fileLines_no_newline file y (by rw [h]; exact List.mem_append_left _ hy)
    simp only [fileLines, scanLines_joinNewline rest x hno]
    exact (List.map_congr_left hcr).trans (List.map_id _)

/-- C6. From a stack file that is absent or was written only by this program, the pushes
of `P1, ..., Pn` (each name without newline and without carriage return) followed by `n`
pops return `Pn, ..., P1` in this order, for every `n ≥ 0`. -/
theorem push_pop_lifo (file : Option Str) (names : List Str) (hfile : WrittenByProgram file)
    (hnames : ∀ p ∈ names, '\n' ∉ p ∧ '\r' ∉ p) :
    popMany names.length (pushAll file names) = names.reverse :=
  popMany_of_lines names (pushAll file names) (fileLines file)
    (fileLines_pushAll names file (writtenByProgram_ends file hfile) hnames)
    (fileLines_no_newline file) hnames

/-- C6 at the pushes of `main`, `feature` onto the file left by an earlier push and pop. -/
theorem push_pop_lifo_witness :
    popMany 2 (pushAll (some "\n".toList) ["main".toList, "feature".toList]) =
      ["feature".toList, "main".toList] :=
  push_pop_lifo (some "\n".toList) ["main".toList, "feature".toList]
    (WrittenByProgram.pop (pushBranch none "x".toList) "x".toList (some "\n".toList)
      (WrittenByProgram.push none "x".toList WrittenByProgram.absent) (by decide))
    (by decide)

end GitStack
